import Mathlib

/-!
Verification of the structural-variant evaluation engine of
`evaluation/evaluate-sv-predictions2.py`: a shallow embedding of the
interval/point matching core (sweep-line candidate generation, exact hit
scoring, best-hit selection) and of the concordance-statistics aggregator
(summaries, F-measure, exclusivity, ternary genotype encoding), together
with theorems settling the specification claims.

Modelling conventions: Python integers become `Int`/`Nat`; Python floats
that arise from true division of integers are modelled exactly as `ℚ`
(the quantities involved, midpoints of integer intervals, are exactly
representable); Python `None`/`float('nan')`/finite floats in statistics
fields become the three-case type `PyNum`; Python sets become `Finset`;
Python dict-of-set results of the sweep become a `Finset` of pairs.
-/

namespace SVEval

/-- Kind of a structural-variant record: deletion, insertion, or a mixed
deletion-with-insertion event. -/
inductive VarType where
  | DEL
  | INS
  | MIX
deriving DecidableEq

/-- One variant record of a `VariationList` chromosome entry, mirroring the
tuples `(coord1, coord2, coord3, var_type, tags)` stored by
`VariationList.__init__`.  For `DEL`: (start, end, none); for `INS`:
(pos, length, none); for `MIX`: (del_start, del_end, some ins_length).
`tags` holds the genotype string in trio mode, else `none`. -/
structure Variation where
  coord1 : Int
  coord2 : Int
  coord3 : Option Int
  var_type : VarType
  tags : Option String
deriving DecidableEq

/-- Python value that is either `None`, a float `NaN`, or a finite number
(modelled exactly as a rational). -/
inductive PyNum where
  | pnone
  | pnan
  | pnum (q : ℚ)
deriving DecidableEq

/-- Embedding of `nan_div`: division that yields NaN when dividing by zero. -/
def nan_div (a b : ℚ) : PyNum :=
  if b = 0 then .pnan else .pnum (a / b)

/-- Embedding of `f_measure`, branch for branch: `None` inputs give `None`,
NaN inputs give NaN, a zero sum gives NaN, else `2*(r*p)/(r+p)`.  The two
arguments are the source's `recall` and `precision`. -/
def f_measure (rc pr : PyNum) : PyNum :=
  match rc, pr with
  | .pnone, _ => .pnone
  | _, .pnone => .pnone
  | .pnan, _ => .pnan
  | _, .pnan => .pnan
  | .pnum r, .pnum p => if r + p = 0 then .pnan else .pnum (2 * (r * p) / (r + p))

/-- Numeric value of a genotype character, as Python `int(c)` on a digit. -/
def charDigit (c : Char) : Nat := c.toNat - 48

/-- Embedding of `index_from_type`: base-3 value of a genotype string, the
last character carrying weight `3^0`, weights increasing leftward. -/
def index_from_type (genostring : String) : Nat :=
  (List.range genostring.length).foldl
    (fun index i =>
      index + 3 ^ i * charDigit (genostring.data.getD (genostring.length - i - 1) '0'))
    0

/-- Embedding of the global `typedict` table: the 27 canonical ternary
genotype strings with their indices. -/
def typedict : List (String × Nat) :=
  [("000", 0), ("001", 1), ("002", 2), ("010", 3), ("011", 4), ("012", 5),
   ("020", 6), ("021", 7), ("022", 8), ("100", 9), ("101", 10), ("102", 11),
   ("110", 12), ("111", 13), ("112", 14), ("120", 15), ("121", 16), ("122", 17),
   ("200", 18), ("201", 19), ("202", 20), ("210", 21), ("211", 22), ("212", 23),
   ("220", 24), ("221", 25), ("222", 26)]

/-- Decoding of a genotype index, as the printers build it by inverting
`typedict` (`idx_to_triotype`). -/
def triotype_from_index (idx : Nat) : Option String :=
  (typedict.find? (fun kv => kv.2 == idx)).map (fun kv => kv.1)

/-- One recorded hit `(index, length_diff, offset, typing)` as appended by
`VariationStatistics.add_hit`.  `offset` (the center distance) is a Python
float obtained from exact halves of integers, modelled as `ℚ`. -/
structure Hit where
  index : Nat
  length_diff : Int
  offset : ℚ
  typing : Option Nat
deriving DecidableEq

/-- Chebyshev-style score `max(length_diff, offset)` used by `get_best_hit`. -/
def hitScore (h : Hit) : ℚ := max (h.length_diff : ℚ) h.offset

/-- Embedding of `VariationStatistics`: outcome accumulator for one queried
variant (the `chromosome` field is dropped; all matching is per chromosome). -/
structure VariationStatistics where
  index : Nat
  typing : Option Nat
  hits : List Hit
  mix_hits : List Hit
deriving DecidableEq

/-- Embedding of `VariationStatistics.add_hit`. -/
def VariationStatistics.add_hit (st : VariationStatistics) (index : Nat)
    (length_diff : Int) (offset : ℚ) (typing : Option Nat) (mix_hit : Bool) :
    VariationStatistics :=
  if mix_hit then { st with mix_hits := st.mix_hits ++ [⟨index, length_diff, offset, typing⟩] }
  else { st with hits := st.hits ++ [⟨index, length_diff, offset, typing⟩] }

/-- Embedding of `VariationStatistics.is_hit`. -/
def VariationStatistics.is_hit (st : VariationStatistics) : Bool :=
  0 < st.hits.length

/-- Embedding of `VariationStatistics.is_mix_hit`. -/
def VariationStatistics.is_mix_hit (st : VariationStatistics) : Bool :=
  0 < st.mix_hits.length

/-- Running state of the `get_best_hit` scan: Python starts with
`best_score = float('inf')` (here `⊤ : WithTop ℚ`) and updates on a strictly
smaller score, so the first minimizer wins. -/
def bestAux : Nat → WithTop ℚ → Nat → List Hit → WithTop ℚ × Nat
  | _, best_score, best_index, [] => (best_score, best_index)
  | i, best_score, best_index, h :: hs =>
    if (hitScore h : WithTop ℚ) < best_score then bestAux (i + 1) (hitScore h) i hs
    else bestAux (i + 1) best_score best_index hs

/-- Embedding of `VariationStatistics.get_best_hit`: `none` on an empty hit
list (Python returns `(None, None, None)`), else the first hit of minimal
`max(length_diff, offset)` score. -/
def get_best_hit (hits : List Hit) : Option Hit :=
  if hits.length = 0 then none
  else some (hits.getD (bestAux 0 ⊤ 0 hits).2 ⟨0, 0, 0, none⟩)

/-- Substring test, as the Python expression `t in s` on strings. -/
def str_in (t s : String) : Bool :=
  (List.range (s.length + 1)).any fun i =>
    (s.data.drop i).take t.data.length == t.data

/-- Tag pass condition: the matchers skip a variant when
`tag != None and (not tag in tags) and not trio`; this is the negation. -/
def tagPass (tag : Option String) (tags : Option String) (trio : Bool) : Bool :=
  match tag with
  | none => true
  | some t => trio || str_in t (tags.getD "")

/-- Query-side lower length filter: skip when `min_length` is set and the
length is below it. -/
def lenMinOk (min_length : Option Int) (len : Int) : Bool :=
  match min_length with
  | none => true
  | some m => !(len < m)

/-- Query-side upper length filter: skip when `max_length` is set and the
length is above it. -/
def lenMaxOk (max_length : Option Int) (len : Int) : Bool :=
  match max_length with
  | none => true
  | some m => !(len > m)

/-- Target-side lower length filter, widened by `difflength` but floored at
5: skip when `min_length` is set and `len < max(min_length - difflength, 5)`. -/
def targetMinOk (min_length : Option Int) (difflength : Int) (len : Int) : Bool :=
  match min_length with
  | none => true
  | some m => !(len < max (m - difflength) 5)

/-- Target-side upper length filter, widened by `difflength`: skip when
`max_length` is set and `len > max_length + difflength`. -/
def targetMaxOk (max_length : Option Int) (difflength : Int) (len : Int) : Bool :=
  match max_length with
  | none => true
  | some m => !(len > m + difflength)

/-- Condition for a variant of `self` to emit query events in
`find_all_deletion_overlaps`: type `DEL`, tag check, raw length filter. -/
def delQueryPass (trio : Bool) (min_length max_length : Option Int)
    (tag : Option String) (v : Variation) : Bool :=
  v.var_type == .DEL && tagPass tag v.tags trio
    && lenMinOk min_length (v.coord2 - v.coord1)
    && lenMaxOk max_length (v.coord2 - v.coord1)

/-- Effective deletion length of a target in `find_all_deletion_overlaps`
and `deletion_hit_statistics`: plain length for `DEL`, deletion length minus
insertion length for `MIX`. -/
def effective_del_length (w : Variation) : Int :=
  match w.var_type with
  | .DEL => w.coord2 - w.coord1
  | .MIX => (w.coord2 - w.coord1) - w.coord3.getD 0
  | .INS => 0

/-- Condition for a variant of `another_list` to emit target events in
`find_all_deletion_overlaps`: type `DEL` or `MIX`, widened length filter on
the effective deletion length. -/
def delTargetPass (min_length max_length : Option Int) (difflength : Int)
    (w : Variation) : Bool :=
  (w.var_type == .DEL || w.var_type == .MIX)
    && targetMinOk min_length difflength (effective_del_length w)
    && targetMaxOk max_length difflength (effective_del_length w)

/-- Sweep event `(pos, event_type, list_idx, variation_index)`; the
`event_type` component encodes `'E'` as 0 and `'S'` as 1, so that the
numeric lexicographic order agrees with Python tuple order (`'E' < 'S'`). -/
abbrev Event : Type := Int × Nat × Nat × Nat

/-- Lexicographic order on events, as Python `list.sort` orders the
4-tuples. -/
def evLE (a b : Event) : Prop :=
  a.1 < b.1 ∨ (a.1 = b.1 ∧ (a.2.1 < b.2.1 ∨ (a.2.1 = b.2.1 ∧
    (a.2.2.1 < b.2.2.1 ∨ (a.2.2.1 = b.2.2.1 ∧ a.2.2.2 ≤ b.2.2.2)))))

instance : DecidableRel evLE := fun a b => by unfold evLE; infer_instance

instance : IsTotal Event evLE := ⟨by intro a b; unfold evLE; omega⟩

instance : IsTrans Event evLE := ⟨by intro a b c; unfold evLE; omega⟩

/-- Strict version of the event order. -/
def evLT (a b : Event) : Prop := evLE a b ∧ a ≠ b

/-- Sorting the event list, as `events.sort()`; on the event lists arising
here all events are distinct, so any correct sort produces the unique
sorted permutation. -/
def sortEvents (l : List Event) : List Event := List.insertionSort evLE l

/-- State of the sweep: result pairs and the two active-index sets. -/
structure SweepSt where
  res : Finset (Nat × Nat)
  act0 : Finset Nat
  act1 : Finset Nat

/-- One step of the sweep loop of `find_all_deletion_overlaps` (shared
verbatim by `insertion_distances` and
`find_all_deletion_centerpoint_hits`): a Start event records every active
index of the other list as a pair, then activates its index; an End event
deactivates its index. -/
def sweepStep (st : SweepSt) (e : Event) : SweepSt :=
  if e.2.1 = 1 then
    if e.2.2.1 = 0 then
      { st with res := st.res ∪ st.act1.image (fun j => (e.2.2.2, j)),
                act0 := insert e.2.2.2 st.act0 }
    else
      { st with res := st.res ∪ st.act0.image (fun i => (i, e.2.2.2)),
                act1 := insert e.2.2.2 st.act1 }
  else
    if e.2.2.1 = 0 then { st with act0 := st.act0.erase e.2.2.2 }
    else { st with act1 := st.act1.erase e.2.2.2 }

/-- Sort the events and run the sweep from the empty state. -/
def sweep (l : List Event) : SweepSt :=
  (sortEvents l).foldl sweepStep ⟨∅, ∅, ∅⟩

/-- Query events of `find_all_deletion_overlaps`: for each passing `DEL` of
`self` (at running index `k`), a Start event at `coord1` and an End event
at `coord2`, tagged with list-id 0. -/
def delQueryEvents (trio : Bool) (min_length max_length : Option Int)
    (tag : Option String) (k : Nat) : List Variation → List Event
  | [] => []
  | v :: vs =>
    (if delQueryPass trio min_length max_length tag v then
      [(v.coord1, 1, 0, k), (v.coord2, 0, 0, k)]
    else [])
      ++ delQueryEvents trio min_length max_length tag (k + 1) vs

/-- Target events of `find_all_deletion_overlaps`: for each passing `DEL`
or `MIX` of `another_list`, Start/End events at the boundaries expanded
outward by `offset`, tagged with list-id 1. -/
def delTargetEvents (min_length max_length : Option Int) (offset difflength : Int)
    (k : Nat) : List Variation → List Event
  | [] => []
  | w :: ws =>
    (if delTargetPass min_length max_length difflength w then
      [(w.coord1 - offset, 1, 1, k), (w.coord2 + offset, 0, 1, k)]
    else [])
      ++ delTargetEvents min_length max_length offset difflength (k + 1) ws

/-- Embedding of `VariationList.find_all_deletion_overlaps` for one
chromosome: the dict-of-sets result is modelled as the set of pairs
`(query index, target index)`. -/
def find_all_deletion_overlaps (self another : List Variation) (trio : Bool)
    (min_length max_length : Option Int) (offset difflength : Int)
    (tag : Option String) : Finset (Nat × Nat) :=
  (sweep (delQueryEvents trio min_length max_length tag 0 self
      ++ delTargetEvents min_length max_length offset difflength 0 another)).res

/-- Matching modes of the hit-statistics routines.  The `significant` mode
is the documented incomplete path (the entry point disables it) and is out
of scope here; an unknown mode is a fatal configuration error in the
source. -/
inductive Mode where
  | overlap
  | fixed_distance
deriving DecidableEq

/-- Midpoint `(coord1 + coord2) / 2` of a deletion interval; Python true
division yields an exactly representable half-integer, modelled in `ℚ`. -/
def center (v : Variation) : ℚ := ((v.coord1 : ℚ) + (v.coord2 : ℚ)) / 2

/-- Genotype code passed with a hit: `index_from_type(tags)` in trio mode,
`None` otherwise. -/
def typingOf (trio : Bool) (v : Variation) : Option Nat :=
  if trio then v.tags.map index_from_type else none

/-- Numeric hit test of `deletion_hit_statistics` on a query `v` and a
candidate target `w`, computed from the raw (non-widened) coordinates:
mode `overlap` requires a strictly positive raw intersection and a length
difference within `difflength`; mode `fixed_distance` requires a center
distance within `offset` and a length difference within `difflength`. -/
def delHitTest (mode : Mode) (offset difflength : Int) (v w : Variation) : Bool :=
  match mode with
  | .overlap =>
    decide (|(v.coord2 - v.coord1) - effective_del_length w| ≤ difflength)
      && decide (0 < max 0 (min v.coord2 w.coord2 - max v.coord1 w.coord1))
  | .fixed_distance =>
    decide (|(v.coord2 - v.coord1) - effective_del_length w| ≤ difflength)
      && decide (|center v - center w| ≤ (offset : ℚ))

/-- Inner-loop step of `deletion_hit_statistics`: examine candidate target
`j`; on a passing numeric test record the hit, in the `mix_hits` list when
the target has type `MIX` and in `hits` otherwise. -/
def delStatsStep (another : List Variation) (mode : Mode) (trio : Bool)
    (offset difflength : Int) (v : Variation) (st : VariationStatistics)
    (j : Nat) : VariationStatistics :=
  match another[j]? with
  | none => st
  | some w =>
    match w.var_type with
    | .INS => st
    | _ =>
      if delHitTest mode offset difflength v w then
        st.add_hit j |(v.coord2 - v.coord1) - effective_del_length w|
          |center v - center w| (typingOf trio w) (w.var_type == .MIX)
      else st

/-- Outcome accumulation of `deletion_hit_statistics` for one passing query
variant `v` at index `i`: fold the hit test over the candidate targets
`overlaps[i]` (a Python set of indices, iterated here in increasing
order). -/
def deletion_stats_for (another : List Variation) (ov : Finset (Nat × Nat))
    (mode : Mode) (trio : Bool) (offset difflength : Int) (i : Nat)
    (v : Variation) : VariationStatistics :=
  ((List.range another.length).filter (fun j => (i, j) ∈ ov)).foldl
    (delStatsStep another mode trio offset difflength v)
    ⟨i, typingOf trio v, [], []⟩

/-- Index-carrying list enumeration, as Python `enumerate`. -/
def enumerate (k : Nat) : List α → List (Nat × α)
  | [] => []
  | a :: as => (k, a) :: enumerate (k + 1) as

/-- Embedding of `VariationList.deletion_hit_statistics` for one
chromosome: one `VariationStatistics` per `DEL` variant of `self` that
passes the length and tag filters, with hits drawn from the sweep's
candidate pairs. -/
def deletion_hit_statistics (self another : List Variation) (mode : Mode)
    (trio : Bool) (min_length max_length : Option Int)
    (offset difflength : Int) (tag : Option String) :
    List VariationStatistics :=
  let ov := find_all_deletion_overlaps self another trio min_length max_length
    offset difflength tag
  (enumerate 0 self).filterMap fun p =>
    if delQueryPass trio min_length max_length tag p.2 then
      some (deletion_stats_for another ov mode trio offset difflength p.1 p.2)
    else none

/-- Effective insertion length of a target in `insertion_distances`:
`coord2` for `INS`, insertion length minus deletion length for `MIX`. -/
def effective_ins_length (w : Variation) : Int :=
  match w.var_type with
  | .INS => w.coord2
  | .MIX => w.coord3.getD 0 - (w.coord2 - w.coord1)
  | .DEL => 0

/-- Condition for a variant of `another_list` to emit target events in
`insertion_distances`: an `INS` needs a positive insertion length and must
pass the widened filter on it; a `MIX` must pass the widened filter on its
effective insertion length. -/
def insTargetPass (min_length max_length : Option Int) (difflength : Int)
    (w : Variation) : Bool :=
  match w.var_type with
  | .INS => decide (0 < w.coord2)
      && targetMinOk min_length difflength w.coord2
      && targetMaxOk max_length difflength w.coord2
  | .MIX => targetMinOk min_length difflength (effective_ins_length w)
      && targetMaxOk max_length difflength (effective_ins_length w)
  | .DEL => false

/-- Position where an `insertion_distances` target interval starts before
widening: the insertion position for `INS`, the floor midpoint of the
deleted part for `MIX` (Python `//`). -/
def insTargetStart (w : Variation) : Int :=
  match w.var_type with
  | .MIX => Int.fdiv (w.coord1 + w.coord2) 2
  | _ => w.coord1

/-- Position where an `insertion_distances` target interval stops before
widening: start plus the insertion length. -/
def insTargetStop (w : Variation) : Int :=
  match w.var_type with
  | .MIX => Int.fdiv (w.coord1 + w.coord2) 2 + w.coord3.getD 0
  | _ => w.coord1 + w.coord2

/-- Target events of `insertion_distances`: for each passing `INS` or `MIX`
of `another_list`, Start/End events at the point interval expanded outward
by `offset`, tagged with list-id 1. -/
def insTargetEvents (min_length max_length : Option Int) (offset difflength : Int)
    (k : Nat) : List Variation → List Event
  | [] => []
  | w :: ws =>
    (if insTargetPass min_length max_length difflength w then
      [(insTargetStart w - offset, 1, 1, k), (insTargetStop w + offset, 0, 1, k)]
    else [])
      ++ insTargetEvents min_length max_length offset difflength (k + 1) ws

/-- Condition for a variant of `self` to emit query events in
`insertion_distances`: type `INS`, tag check, positive insertion length
(`coord2`), raw length filter on the insertion length. -/
def insQueryPass (trio : Bool) (min_length max_length : Option Int)
    (tag : Option String) (v : Variation) : Bool :=
  v.var_type == .INS && tagPass tag v.tags trio && decide (0 < v.coord2)
    && lenMinOk min_length v.coord2 && lenMaxOk max_length v.coord2

/-- Query events of `insertion_distances`: for each passing `INS` of `self`
(insertion position `coord1`, insertion length `coord2`), a Start event at
`pos` and an End event at `pos + length`, tagged with list-id 0. -/
def insQueryEvents (trio : Bool) (min_length max_length : Option Int)
    (tag : Option String) (k : Nat) : List Variation → List Event
  | [] => []
  | v :: vs =>
    (if insQueryPass trio min_length max_length tag v then
      [(v.coord1, 1, 0, k), (v.coord1 + v.coord2, 0, 0, k)]
    else [])
      ++ insQueryEvents trio min_length max_length tag (k + 1) vs

/-- Embedding of `VariationList.insertion_distances` for one chromosome:
the candidate pairs produced by the insertion matcher's sweep (the
returned `results` dict-of-sets), modelled like
`find_all_deletion_overlaps` as a set of `(query index, target index)`
pairs. -/
def insertion_distances (self another : List Variation) (trio : Bool)
    (min_length max_length : Option Int) (offset difflength : Int)
    (tag : Option String) : Finset (Nat × Nat) :=
  (sweep (insQueryEvents trio min_length max_length tag 0 self
      ++ insTargetEvents min_length max_length offset difflength 0 another)).res

/-- Pointwise bump of a counter function, modelling `xs[i] += 1` on a
Python list of counters. -/
def bump (f : Nat → Nat) (i : Nat) : Nat → Nat :=
  fun k => if k = i then f i + 1 else f k

/-- Pointwise bump of a matrix of counters, modelling `m[i][j] += 1`. -/
def bump2 (m : Nat → Nat → Nat) (i j : Nat) : Nat → Nat → Nat :=
  fun a b => if a = i ∧ b = j then m i j + 1 else m a b

/-- Accumulator of the `summarize_variation_stats_list` loop. -/
structure SummarizeAcc where
  hits : Nat
  mix_hits : Nat
  sum_length_diff : ℚ
  sum_offset : ℚ
  hit_bitarray : List Bool
  typematrix : Nat → Nat → Nat
  variantsums : Nat → Nat
  callsums : Nat → Nat

/-- One iteration of the `summarize_variation_stats_list` loop: count the
variant's type, then count it as an exact hit (recording the best hit's
length difference, distance, and genotype pairing), else as a mix hit,
else as a miss (genotype column 0). -/
def summarizeStep (acc : SummarizeAcc) (stats : VariationStatistics) :
    SummarizeAcc :=
  let acc1 :=
    match stats.typing with
    | some t0 => { acc with variantsums := bump acc.variantsums t0 }
    | none => acc
  if stats.is_hit then
    match get_best_hit stats.hits with
    | none => acc1
    | some h =>
      let acc2 := { acc1 with
        hits := acc1.hits + 1,
        sum_length_diff := acc1.sum_length_diff + (h.length_diff : ℚ),
        sum_offset := acc1.sum_offset + h.offset,
        hit_bitarray := acc1.hit_bitarray ++ [true] }
      match stats.typing, h.typing with
      | some t0, some t1 =>
        { acc2 with typematrix := bump2 acc2.typematrix t0 t1,
                    callsums := bump acc2.callsums t1 }
      | _, _ => acc2
  else if stats.is_mix_hit then
    { acc1 with mix_hits := acc1.mix_hits + 1,
                hit_bitarray := acc1.hit_bitarray ++ [false] }
  else
    let acc2 := { acc1 with hit_bitarray := acc1.hit_bitarray ++ [false] }
    match stats.typing with
    | some t0 => { acc2 with typematrix := bump2 acc2.typematrix t0 0 }
    | none => acc2

/-- Result record of `summarize_variation_stats_list`. -/
structure SummarizeResult where
  hits : Nat
  hit_rate : PyNum
  mix_hit_rate : PyNum
  avg_length_diff : PyNum
  avg_offset : PyNum
  hit_bitarray : List Bool
  typematrix : Nat → Nat → Nat
  variantsums : Nat → Nat
  callsums : Nat → Nat

/-- Embedding of `summarize_variation_stats_list`. -/
def summarize_variation_stats_list (stats_list : List VariationStatistics) :
    SummarizeResult :=
  let acc := stats_list.foldl summarizeStep
    ⟨0, 0, 0, 0, [], fun _ _ => 0, fun _ => 0, fun _ => 0⟩
  { hits := acc.hits
    hit_rate := nan_div (acc.hits : ℚ) (stats_list.length : ℚ)
    mix_hit_rate := nan_div (acc.mix_hits : ℚ) (stats_list.length : ℚ)
    avg_length_diff := nan_div acc.sum_length_diff (acc.hits : ℚ)
    avg_offset := nan_div acc.sum_offset (acc.hits : ℚ)
    hit_bitarray := acc.hit_bitarray
    typematrix := acc.typematrix
    variantsums := acc.variantsums
    callsums := acc.callsums }

/-- Bitwise OR of two recall bit-vectors, as `bitarray.__ior__`. -/
def bitarray_or (a b : List Bool) : List Bool := List.zipWith or a b

/-- Bitwise AND-NOT of two recall bit-vectors, as `a & ~b`. -/
def bitarray_and_not (a b : List Bool) : List Bool :=
  List.zipWith (fun x y => x && !y) a b

/-- Number of set bits, as `bitarray.count()`. -/
def bit_count (a : List Bool) : Nat := a.countP id

/-- OR of the recall bit-vectors of all tools other than `tool_idx`, as the
exclusivity loop of `aggregate_toolwise_statistics` computes it. -/
def recall_others (bitarrays : List (List Bool)) (tool_idx : Nat) : List Bool :=
  (List.range bitarrays.length).foldl
    (fun acc i => if i = tool_idx then acc else bitarray_or acc (bitarrays.getD i []))
    (List.replicate (bitarrays.getD tool_idx []).length false)

/-- Bit-vector of the true variants recalled exclusively by `tool_idx`:
own bits AND NOT the OR of all other tools' bits. -/
def exclusive_hits (bitarrays : List (List Bool)) (tool_idx : Nat) : List Bool :=
  bitarray_and_not (bitarrays.getD tool_idx []) (recall_others bitarrays tool_idx)

/-- Exclusivity rate of a tool: exclusive count over total true-variant
count, NaN-safe, as `aggregate_toolwise_statistics` reports it (for
insertions and for deletions alike). -/
def exclusivity_rate (bitarrays : List (List Bool)) (tool_idx : Nat) : PyNum :=
  nan_div (bit_count (exclusive_hits bitarrays tool_idx) : ℚ)
    ((bitarrays.getD tool_idx []).length : ℚ)

/-- Specification predicate for the sweep's active sets: after processing
the prefix `P` of the sorted event list, index `n` of list `lid` is active
iff its Start event has been seen and its End event has not. -/
abbrev isActive (P : List Event) (lid n : Nat) : Prop :=
  (∃ p : Int, ((p, 1, lid, n) : Event) ∈ P) ∧
    ∀ q : Int, ((q, 0, lid, n) : Event) ∉ P

/-- Specification predicate for the sweep's result set: after processing
the prefix `P` of the sorted event list `L`, the pair `(i, j)` has been
recorded iff the Start event of one side has been processed while the
other side was active, i.e. strictly between the other side's Start and
End events in the event order. -/
abbrev recordedPair (L P : List Event) (i j : Nat) : Prop :=
  (∃ a b c : Int, ((a, 1, 0, i) : Event) ∈ P ∧ ((b, 1, 1, j) : Event) ∈ L ∧
    ((c, 0, 1, j) : Event) ∈ L ∧
    evLT (b, 1, 1, j) (a, 1, 0, i) ∧ evLT (a, 1, 0, i) (c, 0, 1, j))
  ∨ (∃ a b c : Int, ((b, 1, 1, j) : Event) ∈ P ∧ ((a, 1, 0, i) : Event) ∈ L ∧
    ((c, 0, 0, i) : Event) ∈ L ∧
    evLT (a, 1, 0, i) (b, 1, 1, j) ∧ evLT (b, 1, 1, j) (c, 0, 0, i))

/-! ### Properties of the event order -/

theorem evLE_antisymm {a b : Event} (h1 : evLE a b) (h2 : evLE b a) : a = b := by
  obtain ⟨p, et, lid, n⟩ := a
  obtain ⟨q, ft, mid, m⟩ := b
  simp only [evLE] at h1 h2
  simp only [Prod.mk.injEq]
  omega

theorem evLT_irrefl (a : Event) : ¬ evLT a a := fun h => h.2 rfl

theorem evLT_asymm {a b : Event} (h1 : evLT a b) : ¬ evLT b a := by
  rintro ⟨h2, hne⟩
  exact hne (evLE_antisymm h2 h1.1)

theorem evLT_total {a b : Event} (hne : a ≠ b) : evLT a b ∨ evLT b a := by
  rcases IsTotal.total (r := evLE) a b with h | h
  · exact Or.inl ⟨h, hne⟩
  · exact Or.inr ⟨h, fun hba => hne hba.symm⟩

theorem evLT_S1_S0 {b a : Int} {j i : Nat} :
    evLT (b, 1, 1, j) (a, 1, 0, i) ↔ b < a := by
  constructor
  · rintro ⟨h, -⟩
    simp [evLE] at h <;> omega
  · intro h
    refine ⟨?_, ?_⟩ <;> simp [evLE, Prod.mk.injEq] <;> omega

theorem evLT_S0_E1 {a c : Int} {i j : Nat} :
    evLT (a, 1, 0, i) (c, 0, 1, j) ↔ a < c := by
  constructor
  · rintro ⟨h, -⟩
    simp [evLE] at h <;> omega
  · intro h
    refine ⟨?_, ?_⟩ <;> simp [evLE, Prod.mk.injEq] <;> omega

theorem evLT_S0_S1 {a b : Int} {i j : Nat} :
    evLT (a, 1, 0, i) (b, 1, 1, j) ↔ a ≤ b := by
  constructor
  · rintro ⟨h, -⟩
    simp [evLE] at h <;> omega
  · intro h
    refine ⟨?_, ?_⟩ <;> simp [evLE, Prod.mk.injEq] <;> omega

theorem evLT_S1_E0 {b c : Int} {j i : Nat} :
    evLT (b, 1, 1, j) (c, 0, 0, i) ↔ b < c := by
  constructor
  · rintro ⟨h, -⟩
    simp [evLE] at h <;> omega
  · intro h
    refine ⟨?_, ?_⟩ <;> simp [evLE, Prod.mk.injEq] <;> omega

theorem evLT_of_pos_lt {p q : Int} {et lid n ft mid m : Nat} (h : p < q) :
    evLT (p, et, lid, n) (q, ft, mid, m) := by
  refine ⟨?_, ?_⟩
  · simp [evLE] <;> omega
  · intro hx
    simp only [Prod.mk.injEq] at hx
    omega

theorem event_eq_iff {p q : Int} {a b c d e f : Nat} :
    ((p, a, b, c) : Event) = (q, d, e, f) ↔ p = q ∧ a = d ∧ b = e ∧ c = f := by
  simp [Prod.mk.injEq]

/-! ### Sorting the events -/

theorem sortEvents_sorted (l : List Event) : (sortEvents l).Sorted evLE :=
  List.sorted_insertionSort evLE l

theorem sortEvents_perm (l : List Event) : List.Perm (sortEvents l) l :=
  List.perm_insertionSort evLE l

theorem mem_sortEvents {l : List Event} {x : Event} :
    x ∈ sortEvents l ↔ x ∈ l :=
  (sortEvents_perm l).mem_iff

theorem pairwise_evLT_of_sorted_nodup {l : List Event}
    (hs : l.Sorted evLE) (hn : l.Nodup) : l.Pairwise evLT :=
  hs.and hn

/-! ### Membership in the generated event lists -/

theorem mem_delQueryEvents {trio : Bool} {minL maxL : Option Int}
    {tag : Option String} :
    ∀ (l : List Variation) (k : Nat) (x : Event),
      x ∈ delQueryEvents trio minL maxL tag k l ↔
        ∃ m v, l[m]? = some v ∧ delQueryPass trio minL maxL tag v = true ∧
          (x = (v.coord1, 1, 0, k + m) ∨ x = (v.coord2, 0, 0, k + m)) := by
  intro l
  induction l with
  | nil =>
    intro k x
    simp [delQueryEvents]
  | cons v vs ih =>
    intro k x
    simp only [delQueryEvents, List.mem_append]
    constructor
    · rintro (hx | hx)
      · by_cases hp : delQueryPass trio minL maxL tag v = true
        · rw [if_pos hp] at hx
          refine ⟨0, v, by simp, hp, ?_⟩
          simpa using hx
        · rw [if_neg hp] at hx
          simp at hx
      · obtain ⟨m, w, hm, hp, hx⟩ := (ih (k + 1) x).mp hx
        refine ⟨m + 1, w, by simpa using hm, hp, ?_⟩
        have he : k + 1 + m = k + (m + 1) := by omega
        rw [he] at hx
        exact hx
    · rintro ⟨m, w, hm, hp, hx⟩
      cases m with
      | zero =>
        left
        simp only [List.getElem?_cons_zero, Option.some.injEq] at hm
        subst hm
        rw [if_pos hp]
        rcases hx with h | h <;> simp [h]
      | succ m =>
        right
        simp only [List.getElem?_cons_succ] at hm
        refine (ih (k + 1) x).mpr ⟨m, w, hm, hp, ?_⟩
        have he : k + 1 + m = k + (m + 1) := by omega
        rw [he]
        exact hx

theorem mem_delTargetEvents {minL maxL : Option Int} {offset difflength : Int} :
    ∀ (l : List Variation) (k : Nat) (x : Event),
      x ∈ delTargetEvents minL maxL offset difflength k l ↔
        ∃ m w, l[m]? = some w ∧ delTargetPass minL maxL difflength w = true ∧
          (x = (w.coord1 - offset, 1, 1, k + m) ∨
           x = (w.coord2 + offset, 0, 1, k + m)) := by
  intro l
  induction l with
  | nil =>
    intro k x
    simp [delTargetEvents]
  | cons v vs ih =>
    intro k x
    simp only [delTargetEvents, List.mem_append]
    constructor
    · rintro (hx | hx)
      · by_cases hp : delTargetPass minL maxL difflength v = true
        · rw [if_pos hp] at hx
          refine ⟨0, v, by simp, hp, ?_⟩
          simpa using hx
        · rw [if_neg hp] at hx
          simp at hx
      · obtain ⟨m, w, hm, hp, hx⟩ := (ih (k + 1) x).mp hx
        refine ⟨m + 1, w, by simpa using hm, hp, ?_⟩
        have he : k + 1 + m = k + (m + 1) := by omega
        rw [he] at hx
        exact hx
    · rintro ⟨m, w, hm, hp, hx⟩
      cases m with
      | zero =>
        left
        simp only [List.getElem?_cons_zero, Option.some.injEq] at hm
        subst hm
        rw [if_pos hp]
        rcases hx with h | h <;> simp [h]
      | succ m =>
        right
        simp only [List.getElem?_cons_succ] at hm
        refine (ih (k + 1) x).mpr ⟨m, w, hm, hp, ?_⟩
        have he : k + 1 + m = k + (m + 1) := by omega
        rw [he]
        exact hx

theorem mem_insTargetEvents {minL maxL : Option Int} {offset difflength : Int} :
    ∀ (l : List Variation) (k : Nat) (x : Event),
      x ∈ insTargetEvents minL maxL offset difflength k l ↔
        ∃ m w, l[m]? = some w ∧ insTargetPass minL maxL difflength w = true ∧
          (x = (insTargetStart w - offset, 1, 1, k + m) ∨
           x = (insTargetStop w + offset, 0, 1, k + m)) := by
  intro l
  induction l with
  | nil =>
    intro k x
    simp [insTargetEvents]
  | cons v vs ih =>
    intro k x
    simp only [insTargetEvents, List.mem_append]
    constructor
    · rintro (hx | hx)
      · by_cases hp : insTargetPass minL maxL difflength v = true
        · rw [if_pos hp] at hx
          refine ⟨0, v, by simp, hp, ?_⟩
          simpa using hx
        · rw [if_neg hp] at hx
          simp at hx
      · obtain ⟨m, w, hm, hp, hx⟩ := (ih (k + 1) x).mp hx
        refine ⟨m + 1, w, by simpa using hm, hp, ?_⟩
        have he : k + 1 + m = k + (m + 1) := by omega
        rw [he] at hx
        exact hx
    · rintro ⟨m, w, hm, hp, hx⟩
      cases m with
      | zero =>
        left
        simp only [List.getElem?_cons_zero, Option.some.injEq] at hm
        subst hm
        rw [if_pos hp]
        rcases hx with h | h <;> simp [h]
      | succ m =>
        right
        simp only [List.getElem?_cons_succ] at hm
        refine (ih (k + 1) x).mpr ⟨m, w, hm, hp, ?_⟩
        have he : k + 1 + m = k + (m + 1) := by omega
        rw [he]
        exact hx

/-! ### Sweep invariant -/

theorem lt_of_mem_left {P R : List Event} {e x : Event}
    (hpair : (P ++ e :: R).Pairwise evLT) (hx : x ∈ P) : evLT x e := by
  rw [List.pairwise_append] at hpair
  exact hpair.2.2 x hx e (List.mem_cons_self e R)

theorem lt_of_mem_right {P R : List Event} {e x : Event}
    (hpair : (P ++ e :: R).Pairwise evLT) (hx : x ∈ R) : evLT e x := by
  rw [List.pairwise_append] at hpair
  exact (List.pairwise_cons.mp hpair.2.1).1 x hx

theorem mem_left_of_lt {P R : List Event} {e x : Event}
    (hpair : (P ++ e :: R).Pairwise evLT) (hxL : x ∈ P ++ e :: R)
    (hlt : evLT x e) : x ∈ P := by
  rcases List.mem_append.mp hxL with h | h
  · exact h
  · rcases List.mem_cons.mp h with h | h
    · subst h
      exact absurd hlt (evLT_irrefl x)
    · exact absurd hlt (evLT_asymm (lt_of_mem_right hpair h))

theorem mem_right_of_not_left {P R : List Event} {e x : Event}
    (hxL : x ∈ P ++ e :: R) (hxP : x ∉ P) (hxe : x ≠ e) : x ∈ R := by
  rcases List.mem_append.mp hxL with h | h
  · exact absurd h hxP
  · rcases List.mem_cons.mp h with h | h
    · exact absurd h hxe
    · exact h

theorem isActive_append_S {L P R : List Event} {p : Int} {lid0 n0 : Nat}
    (hL : L = P ++ ((p, 1, lid0, n0) : Event) :: R)
    (hpair : L.Pairwise evLT)
    (huniq : ∀ x ∈ L, ∀ y ∈ L,
      x.2.1 = y.2.1 → x.2.2.1 = y.2.2.1 → x.2.2.2 = y.2.2.2 → x = y)
    (hSE : ∀ (q : Int) (lid n : Nat), ((q, 1, lid, n) : Event) ∈ L →
      ∃ r : Int, ((r, 0, lid, n) : Event) ∈ L ∧ q < r)
    (lid m : Nat) :
    isActive (P ++ [((p, 1, lid0, n0) : Event)]) lid m ↔
      (isActive P lid m ∨ (lid = lid0 ∧ m = n0)) := by
  constructor
  · rintro ⟨⟨a, haS⟩, hnoE⟩
    rcases List.mem_append.mp haS with hP | hE
    · left
      exact ⟨⟨a, hP⟩, fun q hq => hnoE q (List.mem_append.mpr (Or.inl hq))⟩
    · right
      have he : ((a, 1, lid, m) : Event) = (p, 1, lid0, n0) := by simpa using hE
      rw [event_eq_iff] at he
      exact ⟨he.2.2.1, he.2.2.2⟩
  · rintro (⟨⟨a, haS⟩, hnoE⟩ | ⟨hlid, hm⟩)
    · refine ⟨⟨a, List.mem_append.mpr (Or.inl haS)⟩, ?_⟩
      intro q hq
      rcases List.mem_append.mp hq with h | h
      · exact hnoE q h
      · have he : ((q, 0, lid, m) : Event) = (p, 1, lid0, n0) := by simpa using h
        rw [event_eq_iff] at he
        omega
    · subst hlid
      subst hm
      refine ⟨⟨p, List.mem_append.mpr (Or.inr (by simp))⟩, ?_⟩
      intro q hq
      rcases List.mem_append.mp hq with hqP | hqE
      · have heL : ((p, 1, lid, m) : Event) ∈ L := by rw [hL]; simp
        obtain ⟨r, hrL, hpr⟩ := hSE p lid m heL
        have hqL : ((q, 0, lid, m) : Event) ∈ L := by
          rw [hL]
          exact List.mem_append.mpr (Or.inl hqP)
        have hqr : ((q, 0, lid, m) : Event) = (r, 0, lid, m) :=
          huniq _ hqL _ hrL rfl rfl rfl
        rw [event_eq_iff] at hqr
        have h1 : evLT ((q, 0, lid, m) : Event) (p, 1, lid, m) :=
          lt_of_mem_left (hL ▸ hpair) hqP
        have h2 : evLT ((p, 1, lid, m) : Event) (q, 0, lid, m) :=
          evLT_of_pos_lt (by omega)
        exact evLT_asymm h2 h1
      · have he : ((q, 0, lid, m) : Event) = (p, 1, lid, m) := by simpa using hqE
        rw [event_eq_iff] at he
        omega

theorem isActive_append_E {P : List Event} {p : Int} {lid0 n0 : Nat}
    (lid m : Nat) :
    isActive (P ++ [((p, 0, lid0, n0) : Event)]) lid m ↔
      (isActive P lid m ∧ ¬(lid = lid0 ∧ m = n0)) := by
  constructor
  · rintro ⟨⟨a, haS⟩, hnoE⟩
    have haP : ((a, 1, lid, m) : Event) ∈ P := by
      rcases List.mem_append.mp haS with h | h
      · exact h
      · have he : ((a, 1, lid, m) : Event) = (p, 0, lid0, n0) := by simpa using h
        rw [event_eq_iff] at he
        omega
    refine ⟨⟨⟨a, haP⟩, fun q hq => hnoE q (List.mem_append.mpr (Or.inl hq))⟩, ?_⟩
    rintro ⟨hlid, hm⟩
    subst hlid
    subst hm
    exact hnoE p (List.mem_append.mpr (Or.inr (by simp)))
  · rintro ⟨⟨⟨a, haS⟩, hnoE⟩, hne⟩
    refine ⟨⟨a, List.mem_append.mpr (Or.inl haS)⟩, ?_⟩
    intro q hq
    rcases List.mem_append.mp hq with h | h
    · exact hnoE q h
    · have he : ((q, 0, lid, m) : Event) = (p, 0, lid0, n0) := by simpa using h
      rw [event_eq_iff] at he
      exact hne ⟨he.2.2.1, he.2.2.2⟩

theorem recordedPair_append_S0 {L P R : List Event} {p : Int} {n0 : Nat}
    (hL : L = P ++ ((p, 1, 0, n0) : Event) :: R)
    (hpair : L.Pairwise evLT)
    (huniq : ∀ x ∈ L, ∀ y ∈ L,
      x.2.1 = y.2.1 → x.2.2.1 = y.2.2.1 → x.2.2.2 = y.2.2.2 → x = y)
    (hSE : ∀ (q : Int) (lid n : Nat), ((q, 1, lid, n) : Event) ∈ L →
      ∃ r : Int, ((r, 0, lid, n) : Event) ∈ L ∧ q < r)
    (i j : Nat) :
    recordedPair L (P ++ [((p, 1, 0, n0) : Event)]) i j ↔
      (recordedPair L P i j ∨ (i = n0 ∧ isActive P 1 j)) := by
  constructor
  · rintro (⟨a, b, c, haP, hbL, hcL, h1, h2⟩ | ⟨a, b, c, hbP, haL, hcL, h1, h2⟩)
    · rcases List.mem_append.mp haP with hP | hE
      · exact Or.inl (Or.inl ⟨a, b, c, hP, hbL, hcL, h1, h2⟩)
      · have he : ((a, 1, 0, i) : Event) = (p, 1, 0, n0) := by simpa using hE
        rw [event_eq_iff] at he
        obtain ⟨rfl, -, -, rfl⟩ := he
        right
        refine ⟨rfl, ⟨b, mem_left_of_lt (hL ▸ hpair) (hL ▸ hbL) h1⟩, ?_⟩
        intro q hq
        have hqL : ((q, 0, 1, j) : Event) ∈ L := by
          rw [hL]
          exact List.mem_append.mpr (Or.inl hq)
        have hqc : ((q, 0, 1, j) : Event) = (c, 0, 1, j) :=
          huniq _ hqL _ hcL rfl rfl rfl
        have hlt := lt_of_mem_left (hL ▸ hpair) hq
        rw [hqc] at hlt
        exact evLT_asymm h2 hlt
    · rcases List.mem_append.mp hbP with hP | hE
      · exact Or.inl (Or.inr ⟨a, b, c, hP, haL, hcL, h1, h2⟩)
      · have he : ((b, 1, 1, j) : Event) = (p, 1, 0, n0) := by simpa using hE
        rw [event_eq_iff] at he
        omega
  · rintro (hrec | ⟨hi, hact⟩)
    · rcases hrec with ⟨a, b, c, haP, hbL, hcL, h1, h2⟩ | ⟨a, b, c, hbP, haL, hcL, h1, h2⟩
      · exact Or.inl ⟨a, b, c, List.mem_append.mpr (Or.inl haP), hbL, hcL, h1, h2⟩
      · exact Or.inr ⟨a, b, c, List.mem_append.mpr (Or.inl hbP), haL, hcL, h1, h2⟩
    · subst hi
      obtain ⟨⟨b, hbP⟩, hnoE⟩ := hact
      have hbL : ((b, 1, 1, j) : Event) ∈ L := by
        rw [hL]
        exact List.mem_append.mpr (Or.inl hbP)
      obtain ⟨c, hcL, hbc⟩ := hSE b 1 j hbL
      refine Or.inl ⟨p, b, c, List.mem_append.mpr (Or.inr (by simp)), hbL, hcL,
        lt_of_mem_left (hL ▸ hpair) hbP, ?_⟩
      have hcP : ((c, 0, 1, j) : Event) ∉ P := hnoE c
      have hce : ((c, 0, 1, j) : Event) ≠ (p, 1, 0, i) := by
        intro hx
        rw [event_eq_iff] at hx
        omega
      exact lt_of_mem_right (hL ▸ hpair) (mem_right_of_not_left (hL ▸ hcL) hcP hce)

theorem recordedPair_append_S1 {L P R : List Event} {p : Int} {n0 : Nat}
    (hL : L = P ++ ((p, 1, 1, n0) : Event) :: R)
    (hpair : L.Pairwise evLT)
    (huniq : ∀ x ∈ L, ∀ y ∈ L,
      x.2.1 = y.2.1 → x.2.2.1 = y.2.2.1 → x.2.2.2 = y.2.2.2 → x = y)
    (hSE : ∀ (q : Int) (lid n : Nat), ((q, 1, lid, n) : Event) ∈ L →
      ∃ r : Int, ((r, 0, lid, n) : Event) ∈ L ∧ q < r)
    (i j : Nat) :
    recordedPair L (P ++ [((p, 1, 1, n0) : Event)]) i j ↔
      (recordedPair L P i j ∨ (j = n0 ∧ isActive P 0 i)) := by
  constructor
  · rintro (⟨a, b, c, haP, hbL, hcL, h1, h2⟩ | ⟨a, b, c, hbP, haL, hcL, h1, h2⟩)
    · rcases List.mem_append.mp haP with hP | hE
      · exact Or.inl (Or.inl ⟨a, b, c, hP, hbL, hcL, h1, h2⟩)
      · have he : ((a, 1, 0, i) : Event) = (p, 1, 1, n0) := by simpa using hE
        rw [event_eq_iff] at he
        omega
    · rcases List.mem_append.mp hbP with hP | hE
      · exact Or.inl (Or.inr ⟨a, b, c, hP, haL, hcL, h1, h2⟩)
      · have he : ((b, 1, 1, j) : Event) = (p, 1, 1, n0) := by simpa using hE
        rw [event_eq_iff] at he
        obtain ⟨rfl, -, -, rfl⟩ := he
        right
        refine ⟨rfl, ⟨a, mem_left_of_lt (hL ▸ hpair) (hL ▸ haL) h1⟩, ?_⟩
        intro q hq
        have hqL : ((q, 0, 0, i) : Event) ∈ L := by
          rw [hL]
          exact List.mem_append.mpr (Or.inl hq)
        have hqc : ((q, 0, 0, i) : Event) = (c, 0, 0, i) :=
          huniq _ hqL _ hcL rfl rfl rfl
        have hlt := lt_of_mem_left (hL ▸ hpair) hq
        rw [hqc] at hlt
        exact evLT_asymm h2 hlt
  · rintro (hrec | ⟨hj, hact⟩)
    · rcases hrec with ⟨a, b, c, haP, hbL, hcL, h1, h2⟩ | ⟨a, b, c, hbP, haL, hcL, h1, h2⟩
      · exact Or.inl ⟨a, b, c, List.mem_append.mpr (Or.inl haP), hbL, hcL, h1, h2⟩
      · exact Or.inr ⟨a, b, c, List.mem_append.mpr (Or.inl hbP), haL, hcL, h1, h2⟩
    · subst hj
      obtain ⟨⟨a, haP⟩, hnoE⟩ := hact
      have haL : ((a, 1, 0, i) : Event) ∈ L := by
        rw [hL]
        exact List.mem_append.mpr (Or.inl haP)
      obtain ⟨c, hcL, hac⟩ := hSE a 0 i haL
      refine Or.inr ⟨a, p, c, List.mem_append.mpr (Or.inr (by simp)), haL, hcL,
        lt_of_mem_left (hL ▸ hpair) haP, ?_⟩
      have hcP : ((c, 0, 0, i) : Event) ∉ P := hnoE c
      have hce : ((c, 0, 0, i) : Event) ≠ (p, 1, 1, j) := by
        intro hx
        rw [event_eq_iff] at hx
        omega
      exact lt_of_mem_right (hL ▸ hpair) (mem_right_of_not_left (hL ▸ hcL) hcP hce)

theorem recordedPair_append_E {L P : List Event} {p : Int} {lid0 n0 : Nat}
    (i j : Nat) :
    recordedPair L (P ++ [((p, 0, lid0, n0) : Event)]) i j ↔
      recordedPair L P i j := by
  constructor
  · rintro (⟨a, b, c, haP, hbL, hcL, h1, h2⟩ | ⟨a, b, c, hbP, haL, hcL, h1, h2⟩)
    · rcases List.mem_append.mp haP with hP | hE
      · exact Or.inl ⟨a, b, c, hP, hbL, hcL, h1, h2⟩
      · have he : ((a, 1, 0, i) : Event) = (p, 0, lid0, n0) := by simpa using hE
        rw [event_eq_iff] at he
        omega
    · rcases List.mem_append.mp hbP with hP | hE
      · exact Or.inr ⟨a, b, c, hP, haL, hcL, h1, h2⟩
      · have he : ((b, 1, 1, j) : Event) = (p, 0, lid0, n0) := by simpa using hE
        rw [event_eq_iff] at he
        omega
  · rintro (⟨a, b, c, haP, hbL, hcL, h1, h2⟩ | ⟨a, b, c, hbP, haL, hcL, h1, h2⟩)
    · exact Or.inl ⟨a, b, c, List.mem_append.mpr (Or.inl haP), hbL, hcL, h1, h2⟩
    · exact Or.inr ⟨a, b, c, List.mem_append.mpr (Or.inl hbP), haL, hcL, h1, h2⟩

theorem sweepStep_S0 (st : SweepSt) (p : Int) (n0 : Nat) :
    sweepStep st (p, 1, 0, n0) =
      { st with res := st.res ∪ st.act1.image (fun j => (n0, j)),
                act0 := insert n0 st.act0 } := by
  simp [sweepStep]

theorem sweepStep_S1 (st : SweepSt) (p : Int) (n0 : Nat) :
    sweepStep st (p, 1, 1, n0) =
      { st with res := st.res ∪ st.act0.image (fun i => (i, n0)),
                act1 := insert n0 st.act1 } := by
  simp [sweepStep]

theorem sweepStep_E0 (st : SweepSt) (p : Int) (n0 : Nat) :
    sweepStep st (p, 0, 0, n0) = { st with act0 := st.act0.erase n0 } := by
  simp [sweepStep]

theorem sweepStep_E1 (st : SweepSt) (p : Int) (n0 : Nat) :
    sweepStep st (p, 0, 1, n0) = { st with act1 := st.act1.erase n0 } := by
  simp [sweepStep]

theorem sweep_fold_spec (L : List Event)
    (hshape : ∀ x ∈ L, (x.2.1 = 0 ∨ x.2.1 = 1) ∧ (x.2.2.1 = 0 ∨ x.2.2.1 = 1))
    (hpair : L.Pairwise evLT)
    (huniq : ∀ x ∈ L, ∀ y ∈ L,
      x.2.1 = y.2.1 → x.2.2.1 = y.2.2.1 → x.2.2.2 = y.2.2.2 → x = y)
    (hSE : ∀ (q : Int) (lid n : Nat), ((q, 1, lid, n) : Event) ∈ L →
      ∃ r : Int, ((r, 0, lid, n) : Event) ∈ L ∧ q < r) :
    ∀ (R P : List Event) (st : SweepSt), L = P ++ R →
      (∀ n, n ∈ st.act0 ↔ isActive P 0 n) →
      (∀ n, n ∈ st.act1 ↔ isActive P 1 n) →
      (∀ i j, (i, j) ∈ st.res ↔ recordedPair L P i j) →
      ∀ i j, (i, j) ∈ (R.foldl sweepStep st).res ↔ recordedPair L L i j := by
  intro R
  induction R with
  | nil =>
    intro P st hLP ha0 ha1 hres i j
    have hPL : L = P := by rw [hLP, List.append_nil]
    simp only [List.foldl_nil]
    rw [hres i j, hPL]
  | cons e R ih =>
    intro P st hLP ha0 ha1 hres i j
    obtain ⟨p, et, lid, n0⟩ := e
    have heL : ((p, et, lid, n0) : Event) ∈ L := by rw [hLP]; simp
    obtain ⟨het, hlid⟩ := hshape _ heL
    dsimp only at het hlid
    have hLP2 : L = (P ++ [((p, et, lid, n0) : Event)]) ++ R := by
      rw [hLP, List.append_assoc]
      simp
    simp only [List.foldl_cons]
    rcases het with rfl | rfl <;> rcases hlid with rfl | rfl
    · -- End event, list 0
      rw [sweepStep_E0]
      refine ih (P ++ [((p, 0, 0, n0) : Event)]) _ hLP2 ?_ ?_ ?_ i j
      · intro m
        rw [Finset.mem_erase, ha0 m, isActive_append_E 0 m]
        constructor
        · rintro ⟨hne, h⟩
          exact ⟨h, fun hc => hne hc.2⟩
        · rintro ⟨h, hne⟩
          exact ⟨fun hc => hne ⟨rfl, hc⟩, h⟩
      · intro m
        rw [ha1 m, isActive_append_E 1 m]
        constructor
        · intro h
          exact ⟨h, fun hc => absurd hc.1 (by omega)⟩
        · rintro ⟨h, -⟩
          exact h
      · intro i' j'
        rw [hres i' j', recordedPair_append_E i' j']
    · -- End event, list 1
      rw [sweepStep_E1]
      refine ih (P ++ [((p, 0, 1, n0) : Event)]) _ hLP2 ?_ ?_ ?_ i j
      · intro m
        rw [ha0 m, isActive_append_E 0 m]
        constructor
        · intro h
          exact ⟨h, fun hc => absurd hc.1 (by omega)⟩
        · rintro ⟨h, -⟩
          exact h
      · intro m
        rw [Finset.mem_erase, ha1 m, isActive_append_E 1 m]
        constructor
        · rintro ⟨hne, h⟩
          exact ⟨h, fun hc => hne hc.2⟩
        · rintro ⟨h, hne⟩
          exact ⟨fun hc => hne ⟨rfl, hc⟩, h⟩
      · intro i' j'
        rw [hres i' j', recordedPair_append_E i' j']
    · -- Start event, list 0
      rw [sweepStep_S0]
      refine ih (P ++ [((p, 1, 0, n0) : Event)]) _ hLP2 ?_ ?_ ?_ i j
      · intro m
        rw [Finset.mem_insert, ha0 m, isActive_append_S hLP hpair huniq hSE 0 m]
        constructor
        · rintro (rfl | h)
          · exact Or.inr ⟨rfl, rfl⟩
          · exact Or.inl h
        · rintro (h | ⟨-, rfl⟩)
          · exact Or.inr h
          · exact Or.inl rfl
      · intro m
        rw [ha1 m, isActive_append_S hLP hpair huniq hSE 1 m]
        constructor
        · intro h
          exact Or.inl h
        · rintro (h | ⟨h10, -⟩)
          · exact h
          · exact absurd h10 (by omega)
      · intro i' j'
        rw [Finset.mem_union, hres i' j',
          recordedPair_append_S0 hLP hpair huniq hSE i' j']
        simp only [Finset.mem_image]
        constructor
        · rintro (h | ⟨x, hx, hxe⟩)
          · exact Or.inl h
          · rw [Prod.mk.injEq] at hxe
            refine Or.inr ⟨hxe.1.symm, ?_⟩
            rw [← hxe.2]
            exact (ha1 x).mp hx
        · rintro (h | ⟨rfl, hact⟩)
          · exact Or.inl h
          · exact Or.inr ⟨j', (ha1 j').mpr hact, rfl⟩
    · -- Start event, list 1
      rw [sweepStep_S1]
      refine ih (P ++ [((p, 1, 1, n0) : Event)]) _ hLP2 ?_ ?_ ?_ i j
      · intro m
        rw [ha0 m, isActive_append_S hLP hpair huniq hSE 0 m]
        constructor
        · intro h
          exact Or.inl h
        · rintro (h | ⟨h01, -⟩)
          · exact h
          · exact absurd h01 (by omega)
      · intro m
        rw [Finset.mem_insert, ha1 m, isActive_append_S hLP hpair huniq hSE 1 m]
        constructor
        · rintro (rfl | h)
          · exact Or.inr ⟨rfl, rfl⟩
          · exact Or.inl h
        · rintro (h | ⟨-, rfl⟩)
          · exact Or.inr h
          · exact Or.inl rfl
      · intro i' j'
        rw [Finset.mem_union, hres i' j',
          recordedPair_append_S1 hLP hpair huniq hSE i' j']
        simp only [Finset.mem_image]
        constructor
        · rintro (h | ⟨x, hx, hxe⟩)
          · exact Or.inl h
          · rw [Prod.mk.injEq] at hxe
            refine Or.inr ⟨hxe.2.symm, ?_⟩
            rw [← hxe.1]
            exact (ha0 x).mp hx
        · rintro (h | ⟨rfl, hact⟩)
          · exact Or.inl h
          · exact Or.inr ⟨i', (ha0 i').mpr hact, rfl⟩

theorem mem_sweep_res (l : List Event)
    (hshape : ∀ x ∈ l, (x.2.1 = 0 ∨ x.2.1 = 1) ∧ (x.2.2.1 = 0 ∨ x.2.2.1 = 1))
    (hnodup : l.Nodup)
    (huniq : ∀ x ∈ l, ∀ y ∈ l,
      x.2.1 = y.2.1 → x.2.2.1 = y.2.2.1 → x.2.2.2 = y.2.2.2 → x = y)
    (hSE : ∀ (q : Int) (lid n : Nat), ((q, 1, lid, n) : Event) ∈ l →
      ∃ r : Int, ((r, 0, lid, n) : Event) ∈ l ∧ q < r)
    (i j : Nat) :
    (i, j) ∈ (sweep l).res ↔
      recordedPair (sortEvents l) (sortEvents l) i j := by
  have hperm := sortEvents_perm l
  have hpair : (sortEvents l).Pairwise evLT :=
    pairwise_evLT_of_sorted_nodup (sortEvents_sorted l) (hperm.nodup_iff.mpr hnodup)
  refine sweep_fold_spec (sortEvents l)
    (fun x hx => hshape x (mem_sortEvents.mp hx))
    hpair
    (fun x hx y hy => huniq x (mem_sortEvents.mp hx) y (mem_sortEvents.mp hy))
    (fun q lid n hq => by
      obtain ⟨r, hr, hlt⟩ := hSE q lid n (mem_sortEvents.mp hq)
      exact ⟨r, mem_sortEvents.mpr hr, hlt⟩)
    (sortEvents l) [] ⟨∅, ∅, ∅⟩ rfl ?_ ?_ ?_ i j
  · intro n
    simp [isActive]
  · intro n
    simp [isActive]
  · intro i' j'
    simp [recordedPair]

/-! ### Well-formedness of the generated event lists -/

theorem nodup_delQueryEvents (trio : Bool) (minL maxL : Option Int)
    (tag : Option String) :
    ∀ (l : List Variation) (k : Nat),
      (delQueryEvents trio minL maxL tag k l).Nodup := by
  intro l
  induction l with
  | nil =>
    intro k
    simp [delQueryEvents]
  | cons v vs ih =>
    intro k
    rw [delQueryEvents]
    refine List.Nodup.append ?_ (ih (k + 1)) ?_
    · by_cases hp : delQueryPass trio minL maxL tag v = true
      · rw [if_pos hp]
        simp [Prod.mk.injEq]
      · rw [if_neg hp]
        simp
    · intro x hx hxr
      obtain ⟨m, w, -, -, hx2⟩ := (mem_delQueryEvents vs (k + 1) x).mp hxr
      have hxk : x.2.2.2 = k := by
        by_cases hp : delQueryPass trio minL maxL tag v = true
        · rw [if_pos hp] at hx
          simp only [List.mem_cons, List.not_mem_nil, or_false] at hx
          rcases hx with rfl | rfl <;> rfl
        · rw [if_neg hp] at hx
          simp at hx
      rcases hx2 with hx2 | hx2 <;> rw [hx2] at hxk <;> simp at hxk <;> omega

theorem nodup_delTargetEvents (minL maxL : Option Int) (offset difflength : Int) :
    ∀ (l : List Variation) (k : Nat),
      (delTargetEvents minL maxL offset difflength k l).Nodup := by
  intro l
  induction l with
  | nil =>
    intro k
    simp [delTargetEvents]
  | cons v vs ih =>
    intro k
    rw [delTargetEvents]
    refine List.Nodup.append ?_ (ih (k + 1)) ?_
    · by_cases hp : delTargetPass minL maxL difflength v = true
      · rw [if_pos hp]
        simp [Prod.mk.injEq]
      · rw [if_neg hp]
        simp
    · intro x hx hxr
      obtain ⟨m, w, -, -, hx2⟩ := (mem_delTargetEvents vs (k + 1) x).mp hxr
      have hxk : x.2.2.2 = k := by
        by_cases hp : delTargetPass minL maxL difflength v = true
        · rw [if_pos hp] at hx
          simp only [List.mem_cons, List.not_mem_nil, or_false] at hx
          rcases hx with rfl | rfl <;> rfl
        · rw [if_neg hp] at hx
          simp at hx
      rcases hx2 with hx2 | hx2 <;> rw [hx2] at hxk <;> simp at hxk <;> omega

theorem S0_mem_delQueryEvents_iff {trio : Bool} {minL maxL : Option Int}
    {tag : Option String} {self : List Variation} {a : Int} {i : Nat} :
    ((a, 1, 0, i) : Event) ∈ delQueryEvents trio minL maxL tag 0 self ↔
      ∃ v, self[i]? = some v ∧ delQueryPass trio minL maxL tag v = true ∧
        a = v.coord1 := by
  rw [mem_delQueryEvents]
  constructor
  · rintro ⟨m, v, hm, hp, (hx | hx)⟩ <;> rw [event_eq_iff] at hx
    · have hmi : m = i := by omega
      exact ⟨v, hmi ▸ hm, hp, hx.1⟩
    · omega
  · rintro ⟨v, hm, hp, rfl⟩
    refine ⟨i, v, hm, hp, Or.inl ?_⟩
    rw [event_eq_iff]
    omega

theorem E0_mem_delQueryEvents_iff {trio : Bool} {minL maxL : Option Int}
    {tag : Option String} {self : List Variation} {c : Int} {i : Nat} :
    ((c, 0, 0, i) : Event) ∈ delQueryEvents trio minL maxL tag 0 self ↔
      ∃ v, self[i]? = some v ∧ delQueryPass trio minL maxL tag v = true ∧
        c = v.coord2 := by
  rw [mem_delQueryEvents]
  constructor
  · rintro ⟨m, v, hm, hp, (hx | hx)⟩ <;> rw [event_eq_iff] at hx
    · omega
    · have hmi : m = i := by omega
      exact ⟨v, hmi ▸ hm, hp, hx.1⟩
  · rintro ⟨v, hm, hp, rfl⟩
    refine ⟨i, v, hm, hp, Or.inr ?_⟩
    rw [event_eq_iff]
    omega

theorem S1_mem_delTargetEvents_iff {minL maxL : Option Int}
    {offset difflength : Int} {another : List Variation} {b : Int} {j : Nat} :
    ((b, 1, 1, j) : Event) ∈ delTargetEvents minL maxL offset difflength 0 another ↔
      ∃ w, another[j]? = some w ∧ delTargetPass minL maxL difflength w = true ∧
        b = w.coord1 - offset := by
  rw [mem_delTargetEvents]
  constructor
  · rintro ⟨m, w, hm, hp, (hx | hx)⟩ <;> rw [event_eq_iff] at hx
    · have hmj : m = j := by omega
      exact ⟨w, hmj ▸ hm, hp, hx.1⟩
    · omega
  · rintro ⟨w, hm, hp, rfl⟩
    refine ⟨j, w, hm, hp, Or.inl ?_⟩
    rw [event_eq_iff]
    omega

theorem E1_mem_delTargetEvents_iff {minL maxL : Option Int}
    {offset difflength : Int} {another : List Variation} {c : Int} {j : Nat} :
    ((c, 0, 1, j) : Event) ∈ delTargetEvents minL maxL offset difflength 0 another ↔
      ∃ w, another[j]? = some w ∧ delTargetPass minL maxL difflength w = true ∧
        c = w.coord2 + offset := by
  rw [mem_delTargetEvents]
  constructor
  · rintro ⟨m, w, hm, hp, (hx | hx)⟩ <;> rw [event_eq_iff] at hx
    · omega
    · have hmj : m = j := by omega
      exact ⟨w, hmj ▸ hm, hp, hx.1⟩
  · rintro ⟨w, hm, hp, rfl⟩
    refine ⟨j, w, hm, hp, Or.inr ?_⟩
    rw [event_eq_iff]
    omega

/-- Characterization of the sweep's candidate pairs in
`find_all_deletion_overlaps`: under the no-degenerate-interval side
conditions (a zero-length emitted interval would make the Python sweep
raise `KeyError`, removing an index before inserting it), target `j` is a
candidate for query `i` exactly when both pass their filters and the raw
query interval strictly intersects the `offset`-widened target interval. -/
theorem mem_find_all_deletion_overlaps
    (self another : List Variation) (trio : Bool) (minL maxL : Option Int)
    (offset difflength : Int) (tag : Option String)
    (hq : ∀ v ∈ self, delQueryPass trio minL maxL tag v = true →
      v.coord1 < v.coord2)
    (ht : ∀ w ∈ another, delTargetPass minL maxL difflength w = true →
      w.coord1 - offset < w.coord2 + offset)
    (i j : Nat) :
    (i, j) ∈ find_all_deletion_overlaps self another trio minL maxL offset
        difflength tag ↔
      ∃ v w, self[i]? = some v ∧ another[j]? = some w ∧
        delQueryPass trio minL maxL tag v = true ∧
        delTargetPass minL maxL difflength w = true ∧
        max v.coord1 (w.coord1 - offset) < min v.coord2 (w.coord2 + offset) := by
  set qe := delQueryEvents trio minL maxL tag 0 self with hqe
  set te := delTargetEvents minL maxL offset difflength 0 another with hte
  have hS0 : ∀ (a : Int) (i' : Nat), ((a, 1, 0, i') : Event) ∈ qe ++ te ↔
      ∃ v, self[i']? = some v ∧ delQueryPass trio minL maxL tag v = true ∧
        a = v.coord1 := by
    intro a i'
    rw [List.mem_append]
    constructor
    · rintro (h | h)
      · exact S0_mem_delQueryEvents_iff.mp h
      · obtain ⟨m, w, -, -, h2⟩ := (mem_delTargetEvents _ 0 _).mp h
        exfalso
        rcases h2 with h2 | h2 <;> rw [event_eq_iff] at h2 <;> omega
    · intro h
      exact Or.inl (S0_mem_delQueryEvents_iff.mpr h)
  have hE0 : ∀ (c : Int) (i' : Nat), ((c, 0, 0, i') : Event) ∈ qe ++ te ↔
      ∃ v, self[i']? = some v ∧ delQueryPass trio minL maxL tag v = true ∧
        c = v.coord2 := by
    intro c i'
    rw [List.mem_append]
    constructor
    · rintro (h | h)
      · exact E0_mem_delQueryEvents_iff.mp h
      · obtain ⟨m, w, -, -, h2⟩ := (mem_delTargetEvents _ 0 _).mp h
        exfalso
        rcases h2 with h2 | h2 <;> rw [event_eq_iff] at h2 <;> omega
    · intro h
      exact Or.inl (E0_mem_delQueryEvents_iff.mpr h)
  have hS1 : ∀ (b : Int) (j' : Nat), ((b, 1, 1, j') : Event) ∈ qe ++ te ↔
      ∃ w, another[j']? = some w ∧ delTargetPass minL maxL difflength w = true ∧
        b = w.coord1 - offset := by
    intro b j'
    rw [List.mem_append]
    constructor
    · rintro (h | h)
      · obtain ⟨m, v, -, -, h2⟩ := (mem_delQueryEvents _ 0 _).mp h
        exfalso
        rcases h2 with h2 | h2 <;> rw [event_eq_iff] at h2 <;> omega
      · exact S1_mem_delTargetEvents_iff.mp h
    · intro h
      exact Or.inr (S1_mem_delTargetEvents_iff.mpr h)
  have hE1 : ∀ (c : Int) (j' : Nat), ((c, 0, 1, j') : Event) ∈ qe ++ te ↔
      ∃ w, another[j']? = some w ∧ delTargetPass minL maxL difflength w = true ∧
        c = w.coord2 + offset := by
    intro c j'
    rw [List.mem_append]
    constructor
    · rintro (h | h)
      · obtain ⟨m, v, -, -, h2⟩ := (mem_delQueryEvents _ 0 _).mp h
        exfalso
        rcases h2 with h2 | h2 <;> rw [event_eq_iff] at h2 <;> omega
      · exact E1_mem_delTargetEvents_iff.mp h
    · intro h
      exact Or.inr (E1_mem_delTargetEvents_iff.mpr h)
  have hshape : ∀ x ∈ qe ++ te,
      (x.2.1 = 0 ∨ x.2.1 = 1) ∧ (x.2.2.1 = 0 ∨ x.2.2.1 = 1) := by
    intro x hx
    rcases List.mem_append.mp hx with hx | hx
    · obtain ⟨m, v, -, -, hx2⟩ := (mem_delQueryEvents _ 0 _).mp hx
      rcases hx2 with rfl | rfl <;> simp
    · obtain ⟨m, w, -, -, hx2⟩ := (mem_delTargetEvents _ 0 _).mp hx
      rcases hx2 with rfl | rfl <;> simp
  have hnodup : (qe ++ te).Nodup := by
    refine List.Nodup.append (nodup_delQueryEvents trio minL maxL tag self 0)
      (nodup_delTargetEvents minL maxL offset difflength another 0) ?_
    intro x hx hx2
    obtain ⟨m, v, -, -, h2⟩ := (mem_delQueryEvents _ 0 _).mp hx
    obtain ⟨m2, w, -, -, h3⟩ := (mem_delTargetEvents _ 0 _).mp hx2
    rcases h2 with rfl | rfl <;> rcases h3 with h3 | h3 <;>
      rw [event_eq_iff] at h3 <;> omega
  have huniq : ∀ x ∈ qe ++ te, ∀ y ∈ qe ++ te,
      x.2.1 = y.2.1 → x.2.2.1 = y.2.2.1 → x.2.2.2 = y.2.2.2 → x = y := by
    intro x hx y hy h1 h2 h3
    rcases List.mem_append.mp hx with hxq | hxt <;>
      rcases List.mem_append.mp hy with hyq | hyt
    · obtain ⟨m, v, hm, -, hx2⟩ := (mem_delQueryEvents _ 0 _).mp hxq
      obtain ⟨m2, v2, hm2, -, hy2⟩ := (mem_delQueryEvents _ 0 _).mp hyq
      rcases hx2 with rfl | rfl <;> rcases hy2 with rfl | rfl <;>
        dsimp only at h1 h2 h3
      · have hmm : m = m2 := by omega
        subst hmm
        have hv : v = v2 := Option.some.inj (hm.symm.trans hm2)
        rw [hv]
      · exact absurd h1 (by decide)
      · exact absurd h1 (by decide)
      · have hmm : m = m2 := by omega
        subst hmm
        have hv : v = v2 := Option.some.inj (hm.symm.trans hm2)
        rw [hv]
    · obtain ⟨m, v, -, -, hx2⟩ := (mem_delQueryEvents _ 0 _).mp hxq
      obtain ⟨m2, w, -, -, hy2⟩ := (mem_delTargetEvents _ 0 _).mp hyt
      exfalso
      rcases hx2 with rfl | rfl <;> rcases hy2 with rfl | rfl <;>
        dsimp only at h2 <;> omega
    · obtain ⟨m, w, -, -, hx2⟩ := (mem_delTargetEvents _ 0 _).mp hxt
      obtain ⟨m2, v, -, -, hy2⟩ := (mem_delQueryEvents _ 0 _).mp hyq
      exfalso
      rcases hx2 with rfl | rfl <;> rcases hy2 with rfl | rfl <;>
        dsimp only at h2 <;> omega
    · obtain ⟨m, w, hm, -, hx2⟩ := (mem_delTargetEvents _ 0 _).mp hxt
      obtain ⟨m2, w2, hm2, -, hy2⟩ := (mem_delTargetEvents _ 0 _).mp hyt
      rcases hx2 with rfl | rfl <;> rcases hy2 with rfl | rfl <;>
        dsimp only at h1 h2 h3
      · have hmm : m = m2 := by omega
        subst hmm
        have hw : w = w2 := Option.some.inj (hm.symm.trans hm2)
        rw [hw]
      · exact absurd h1 (by decide)
      · exact absurd h1 (by decide)
      · have hmm : m = m2 := by omega
        subst hmm
        have hw : w = w2 := Option.some.inj (hm.symm.trans hm2)
        rw [hw]
  have hSE : ∀ (q : Int) (lid n : Nat), ((q, 1, lid, n) : Event) ∈ qe ++ te →
      ∃ r : Int, ((r, 0, lid, n) : Event) ∈ qe ++ te ∧ q < r := by
    intro q lid n hmem
    rcases List.mem_append.mp hmem with hmem | hmem
    · obtain ⟨m, v, hm, hpv, hx2⟩ := (mem_delQueryEvents _ 0 _).mp hmem
      rcases hx2 with hx2 | hx2 <;> rw [event_eq_iff] at hx2
      · obtain ⟨rfl, -, rfl, rfl⟩ := hx2
        refine ⟨v.coord2, (hE0 v.coord2 (0 + m)).mpr ⟨v, ?_, hpv, rfl⟩,
          hq v (List.getElem?_mem hm) hpv⟩
        simpa using hm
      · exfalso
        omega
    · obtain ⟨m, w, hm, hpw, hx2⟩ := (mem_delTargetEvents _ 0 _).mp hmem
      rcases hx2 with hx2 | hx2 <;> rw [event_eq_iff] at hx2
      · obtain ⟨rfl, -, rfl, rfl⟩ := hx2
        refine ⟨w.coord2 + offset, (hE1 (w.coord2 + offset) (0 + m)).mpr
          ⟨w, ?_, hpw, rfl⟩, ht w (List.getElem?_mem hm) hpw⟩
        simpa using hm
      · exfalso
        omega
  rw [show find_all_deletion_overlaps self another trio minL maxL offset
      difflength tag = (sweep (qe ++ te)).res from rfl]
  rw [mem_sweep_res (qe ++ te) hshape hnodup huniq hSE i j]
  constructor
  · rintro (⟨a, b, c, haL, hbL, hcL, h1, h2⟩ | ⟨a, b, c, hbL, haL, hcL, h1, h2⟩)
    · rw [mem_sortEvents] at haL hbL hcL
      obtain ⟨v, hvi, hvp, rfl⟩ := (hS0 a i).mp haL
      obtain ⟨w, hwj, hwp, rfl⟩ := (hS1 b j).mp hbL
      obtain ⟨w2, hwj2, -, rfl⟩ := (hE1 c j).mp hcL
      have hww : w2 = w := Option.some.inj (hwj2.symm.trans hwj)
      subst hww
      rw [evLT_S1_S0] at h1
      rw [evLT_S0_E1] at h2
      have h3 := hq v (List.getElem?_mem hvi) hvp
      have h4 := ht w2 (List.getElem?_mem hwj) hwp
      refine ⟨v, w2, hvi, hwj, hvp, hwp, ?_⟩
      rw [max_lt_iff, lt_min_iff, lt_min_iff]
      exact ⟨⟨h3, h2⟩, by omega, h4⟩
    · rw [mem_sortEvents] at haL hbL hcL
      obtain ⟨w, hwj, hwp, rfl⟩ := (hS1 b j).mp hbL
      obtain ⟨v, hvi, hvp, rfl⟩ := (hS0 a i).mp haL
      obtain ⟨v2, hvi2, -, rfl⟩ := (hE0 c i).mp hcL
      have hvv : v2 = v := Option.some.inj (hvi2.symm.trans hvi)
      subst hvv
      rw [evLT_S0_S1] at h1
      rw [evLT_S1_E0] at h2
      have h3 := hq v2 (List.getElem?_mem hvi) hvp
      have h4 := ht w (List.getElem?_mem hwj) hwp
      refine ⟨v2, w, hvi, hwj, hvp, hwp, ?_⟩
      rw [max_lt_iff, lt_min_iff, lt_min_iff]
      exact ⟨⟨h3, by omega⟩, h2, h4⟩
  · rintro ⟨v, w, hvi, hwj, hvp, hwp, hlt⟩
    rw [max_lt_iff, lt_min_iff, lt_min_iff] at hlt
    by_cases hcase : w.coord1 - offset < v.coord1
    · refine Or.inl ⟨v.coord1, w.coord1 - offset, w.coord2 + offset,
        mem_sortEvents.mpr ((hS0 _ _).mpr ⟨v, hvi, hvp, rfl⟩),
        mem_sortEvents.mpr ((hS1 _ _).mpr ⟨w, hwj, hwp, rfl⟩),
        mem_sortEvents.mpr ((hE1 _ _).mpr ⟨w, hwj, hwp, rfl⟩),
        evLT_S1_S0.mpr hcase, evLT_S0_E1.mpr hlt.1.2⟩
    · refine Or.inr ⟨v.coord1, w.coord1 - offset, v.coord2,
        mem_sortEvents.mpr ((hS1 _ _).mpr ⟨w, hwj, hwp, rfl⟩),
        mem_sortEvents.mpr ((hS0 _ _).mpr ⟨v, hvi, hvp, rfl⟩),
        mem_sortEvents.mpr ((hE0 _ _).mpr ⟨v, hvi, hvp, rfl⟩),
        evLT_S0_S1.mpr (by omega), evLT_S1_E0.mpr hlt.2.1⟩

/-! ### Hit accumulation -/

theorem delStatsStep_index (another : List Variation) (mode : Mode)
    (trio : Bool) (offset difflength : Int) (v : Variation)
    (st : VariationStatistics) (j : Nat) :
    (delStatsStep another mode trio offset difflength v st j).index = st.index := by
  unfold delStatsStep VariationStatistics.add_hit
  rcases h : another[j]? with - | w
  · rfl
  · dsimp only
    cases hvt : w.var_type <;> dsimp only <;>
      first
        | rfl
        | (split <;> first
            | rfl
            | (split <;> rfl))

theorem delStatsFold_index (another : List Variation) (mode : Mode)
    (trio : Bool) (offset difflength : Int) (v : Variation) :
    ∀ (js : List Nat) (st : VariationStatistics),
      ((js.foldl (delStatsStep another mode trio offset difflength v) st).index)
        = st.index := by
  intro js
  induction js with
  | nil =>
    intro st
    rfl
  | cons j js ih =>
    intro st
    rw [List.foldl_cons, ih, delStatsStep_index]

theorem mem_hits_delStatsFold (another : List Variation) (mode : Mode)
    (trio : Bool) (offset difflength : Int) (v : Variation) :
    ∀ (js : List Nat) (st : VariationStatistics) (h : Hit),
      h ∈ (js.foldl (delStatsStep another mode trio offset difflength v) st).hits ↔
        h ∈ st.hits ∨ ∃ j ∈ js, ∃ w, another[j]? = some w ∧
          w.var_type = .DEL ∧ delHitTest mode offset difflength v w = true ∧
          h = ⟨j, |(v.coord2 - v.coord1) - effective_del_length w|,
                |center v - center w|, typingOf trio w⟩ := by
  intro js
  induction js with
  | nil =>
    intro st h
    simp
  | cons j js ih =>
    intro st h
    rw [List.foldl_cons, ih]
    have hstep : (delStatsStep another mode trio offset difflength v st j).hits
        = st.hits ++
          (match another[j]? with
           | none => []
           | some w =>
             if w.var_type = .DEL ∧ delHitTest mode offset difflength v w = true
             then [⟨j, |(v.coord2 - v.coord1) - effective_del_length w|,
                    |center v - center w|, typingOf trio w⟩]
             else []) := by
      rw [delStatsStep]
      rcases hj2 : another[j]? with - | w
      · simp
      · dsimp only
        cases hw : w.var_type <;> dsimp only
        · by_cases hc : delHitTest mode offset difflength v w = true
          · rw [if_pos hc, VariationStatistics.add_hit,
              if_neg (by decide), if_pos ⟨rfl, hc⟩]
          · rw [if_neg hc, if_neg (by rintro ⟨-, hcc⟩; exact hc hcc)]
            simp
        · rw [if_neg (by rintro ⟨hdd, -⟩; cases hdd)]
          simp
        · by_cases hc : delHitTest mode offset difflength v w = true
          · rw [if_pos hc, VariationStatistics.add_hit, if_pos (by decide),
              if_neg (by rintro ⟨hdd, -⟩; cases hdd)]
            simp
          · rw [if_neg hc, if_neg (by rintro ⟨hdd, -⟩; cases hdd)]
            simp
    rw [hstep]
    rcases hj : another[j]? with - | w
    · simp only [List.mem_append, List.not_mem_nil, or_false]
      constructor
      · rintro (h1 | h1)
        · exact Or.inl h1
        · obtain ⟨j2, hj2, rest⟩ := h1
          exact Or.inr ⟨j2, List.mem_cons_of_mem j hj2, rest⟩
      · rintro (h1 | ⟨j2, hj2, w2, hw2, rest⟩)
        · exact Or.inl h1
        · rcases List.mem_cons.mp hj2 with rfl | hj2
          · rw [hj] at hw2
            cases hw2
          · exact Or.inr ⟨j2, hj2, w2, hw2, rest⟩
    · dsimp only
      by_cases hc : w.var_type = .DEL ∧ delHitTest mode offset difflength v w = true
      · rw [if_pos hc]
        simp only [List.mem_append, List.mem_singleton]
        constructor
        · rintro ((h1 | h1) | h1)
          · exact Or.inl h1
          · exact Or.inr ⟨j, List.mem_cons_self j js, w, hj, hc.1, hc.2, h1⟩
          · obtain ⟨j2, hj2, rest⟩ := h1
            exact Or.inr ⟨j2, List.mem_cons_of_mem j hj2, rest⟩
        · rintro (h1 | ⟨j2, hj2, w2, hw2, hd, hh, rest⟩)
          · exact Or.inl (Or.inl h1)
          · rcases List.mem_cons.mp hj2 with rfl | hj2
            · rw [hj] at hw2
              cases hw2
              exact Or.inl (Or.inr rest)
            · exact Or.inr ⟨j2, hj2, w2, hw2, hd, hh, rest⟩
      · rw [if_neg hc]
        simp only [List.append_nil]
        constructor
        · rintro (h1 | h1)
          · exact Or.inl h1
          · obtain ⟨j2, hj2, rest⟩ := h1
            exact Or.inr ⟨j2, List.mem_cons_of_mem j hj2, rest⟩
        · rintro (h1 | ⟨j2, hj2, w2, hw2, hd, hh, rest⟩)
          · exact Or.inl h1
          · rcases List.mem_cons.mp hj2 with rfl | hj2
            · rw [hj] at hw2
              cases hw2
              exact absurd ⟨hd, hh⟩ hc
            · exact Or.inr ⟨j2, hj2, w2, hw2, hd, hh, rest⟩

theorem mem_enumerate : ∀ (l : List α) (k : Nat) (p : Nat × α),
    p ∈ enumerate k l ↔ ∃ m, p.1 = k + m ∧ l[m]? = some p.2 := by
  intro l
  induction l with
  | nil =>
    intro k p
    simp [enumerate]
  | cons a as ih =>
    intro k p
    rw [enumerate]
    simp only [List.mem_cons]
    constructor
    · rintro (rfl | hp)
      · exact ⟨0, by simp⟩
      · obtain ⟨m, hm, hget⟩ := (ih (k + 1) p).mp hp
        exact ⟨m + 1, by omega, by simpa using hget⟩
    · rintro ⟨m, hm, hget⟩
      cases m with
      | zero =>
        left
        simp only [List.getElem?_cons_zero, Option.some.injEq] at hget
        obtain ⟨p1, p2⟩ := p
        simp only at hm hget
        simp [hm, hget]
      | succ m =>
        right
        refine (ih (k + 1) p).mpr ⟨m, by omega, ?_⟩
        simpa using hget

theorem deletion_hit_statistics_entry (self another : List Variation)
    (mode : Mode) (trio : Bool) (min_length max_length : Option Int)
    (offset difflength : Int) (tag : Option String) (i : Nat) (v : Variation)
    (hvi : self[i]? = some v)
    (hvp : delQueryPass trio min_length max_length tag v = true) :
    deletion_stats_for another
        (find_all_deletion_overlaps self another trio min_length max_length
          offset difflength tag) mode trio offset difflength i v ∈
      deletion_hit_statistics self another mode trio min_length max_length
        offset difflength tag := by
  rw [deletion_hit_statistics]
  rw [List.mem_filterMap]
  refine ⟨(i, v), (mem_enumerate self 0 (i, v)).mpr ⟨i, by omega, hvi⟩, ?_⟩
  rw [if_pos hvp]

theorem delQueryPass_DEL {trio : Bool} {minL maxL : Option Int}
    {tag : Option String} {v : Variation}
    (h : delQueryPass trio minL maxL tag v = true) : v.var_type = .DEL := by
  simp only [delQueryPass, Bool.and_eq_true, beq_iff_eq] at h
  exact h.1.1.1

theorem delTargetPass_kind {minL maxL : Option Int} {difflength : Int}
    {w : Variation} (h : delTargetPass minL maxL difflength w = true) :
    w.var_type = .DEL ∨ w.var_type = .MIX := by
  simp only [delTargetPass, Bool.and_eq_true, Bool.or_eq_true, beq_iff_eq] at h
  exact h.1.1

theorem deletion_stats_for_index (another : List Variation)
    (ov : Finset (Nat × Nat)) (mode : Mode) (trio : Bool)
    (offset difflength : Int) (i : Nat) (v : Variation) :
    (deletion_stats_for another ov mode trio offset difflength i v).index = i := by
  rw [deletion_stats_for, delStatsFold_index]

theorem delHitTest_overlap_iff {offset difflength : Int} {v w : Variation}
    (hw : w.var_type = .DEL) :
    delHitTest .overlap offset difflength v w = true ↔
      (|(v.coord2 - v.coord1) - (w.coord2 - w.coord1)| ≤ difflength ∧
       0 < max 0 (min v.coord2 w.coord2 - max v.coord1 w.coord1)) := by
  simp [delHitTest, effective_del_length, hw]

/-- Claim C1: in `overlap` mode, for a query `DEL` variant `v` (at index
`i`, passing the raw length filter) and a target `DEL` variant `w` (at
index `j`, passing the widened target length filter), the hit statistics
record `j` as an exact hit of `i` if and only if the raw intervals
strictly intersect (`max(0, min(end_q,end_t) - max(start_q,start_t)) > 0`)
and the length difference is within `difflength`; in particular a target
interval that merely touches the query interval (`w.coord2 = v.coord1`)
never produces a hit.  The side conditions require positive interval
lengths (a degenerate emitted interval would crash the Python sweep with
`KeyError`) and a nonnegative `offset`. -/
theorem claim_C1_overlap_hit_iff
    (self another : List Variation) (min_length max_length : Option Int)
    (offset difflength : Int)
    (hoff : 0 ≤ offset)
    (hq : ∀ u ∈ self, u.var_type = .DEL → u.coord1 < u.coord2)
    (ht : ∀ u ∈ another, u.var_type = .DEL ∨ u.var_type = .MIX →
      u.coord1 - offset < u.coord2 + offset)
    (i j : Nat) (v w : Variation)
    (hvi : self[i]? = some v) (hv : v.var_type = .DEL)
    (hwj : another[j]? = some w) (hw : w.var_type = .DEL)
    (hqf1 : lenMinOk min_length (v.coord2 - v.coord1) = true)
    (hqf2 : lenMaxOk max_length (v.coord2 - v.coord1) = true)
    (htf1 : targetMinOk min_length difflength (w.coord2 - w.coord1) = true)
    (htf2 : targetMaxOk max_length difflength (w.coord2 - w.coord1) = true) :
    ∃ s ∈ deletion_hit_statistics self another .overlap false min_length
        max_length offset difflength none,
      s.index = i ∧
      ((∃ h ∈ s.hits, h.index = j) ↔
        (0 < max 0 (min v.coord2 w.coord2 - max v.coord1 w.coord1) ∧
         |(v.coord2 - v.coord1) - (w.coord2 - w.coord1)| ≤ difflength)) ∧
      (w.coord2 = v.coord1 → ¬ ∃ h ∈ s.hits, h.index = j) := by
  have hvp : delQueryPass false min_length max_length none v = true := by
    simp [delQueryPass, tagPass, hv, hqf1, hqf2]
  have hwp : delTargetPass min_length max_length difflength w = true := by
    simp [delTargetPass, effective_del_length, hw, htf1, htf2]
  have hq2 : ∀ u ∈ self, delQueryPass false min_length max_length none u = true →
      u.coord1 < u.coord2 :=
    fun u hu hp => hq u hu (delQueryPass_DEL hp)
  have ht2 : ∀ u ∈ another, delTargetPass min_length max_length difflength u = true →
      u.coord1 - offset < u.coord2 + offset :=
    fun u hu hp => ht u hu (delTargetPass_kind hp)
  have hchar := mem_find_all_deletion_overlaps self another false min_length
    max_length offset difflength none hq2 ht2 i j
  refine ⟨_, deletion_hit_statistics_entry self another .overlap false
    min_length max_length offset difflength none i v hvi hvp, ?_, ?_, ?_⟩
  · exact deletion_stats_for_index _ _ _ _ _ _ _ _
  · constructor
    · rintro ⟨h, hmem, hidx⟩
      rw [deletion_stats_for, mem_hits_delStatsFold] at hmem
      rcases hmem with hmem | ⟨j2, hj2mem, w2, hw2, hdel2, htest2, hform⟩
      · simp at hmem
      · have hidx2 : h.index = j2 := by rw [hform]
        have hjj : j2 = j := by rw [← hidx, hidx2]
        subst hjj
        have hww : w2 = w := Option.some.inj (hw2.symm.trans hwj)
        subst hww
        obtain ⟨hld, hovl⟩ := (delHitTest_overlap_iff hdel2).mp htest2
        exact ⟨hovl, hld⟩
    · rintro ⟨hovl, hld⟩
      have hjlen : j < another.length := (List.getElem?_eq_some.mp hwj).1
      have hwide : max v.coord1 (w.coord1 - offset) <
          min v.coord2 (w.coord2 + offset) := by
        rw [max_lt_iff, lt_min_iff, lt_min_iff]
        have hvpos := hq v (List.getElem?_mem hvi) hv
        have hraw : max v.coord1 w.coord1 < min v.coord2 w.coord2 := by
          rcases max_choice 0 (min v.coord2 w.coord2 - max v.coord1 w.coord1)
            with hm | hm <;> rw [hm] at hovl <;> omega
        rw [max_lt_iff, lt_min_iff, lt_min_iff] at hraw
        refine ⟨⟨hraw.1.1, by omega⟩, by omega, by omega⟩
      refine ⟨⟨j, |(v.coord2 - v.coord1) - effective_del_length w|,
        |center v - center w|, typingOf false w⟩, ?_, rfl⟩
      rw [deletion_stats_for, mem_hits_delStatsFold]
      refine Or.inr ⟨j, ?_, w, hwj, hw, ?_, rfl⟩
      · rw [List.mem_filter]
        refine ⟨List.mem_range.mpr hjlen, ?_⟩
        rw [decide_eq_true_eq]
        exact hchar.mpr ⟨v, w, hvi, hwj, hvp, hwp, hwide⟩
      · exact (delHitTest_overlap_iff hw).mpr ⟨hld, hovl⟩
  · rintro htouch ⟨h, hmem, hidx⟩
    rw [deletion_stats_for, mem_hits_delStatsFold] at hmem
    rcases hmem with hmem | ⟨j2, hj2mem, w2, hw2, hdel2, htest2, hform⟩
    · simp at hmem
    · have hidx2 : h.index = j2 := by rw [hform]
      have hjj : j2 = j := by rw [← hidx, hidx2]
      subst hjj
      have hww : w2 = w := Option.some.inj (hw2.symm.trans hwj)
      obtain ⟨-, hovl⟩ := (delHitTest_overlap_iff hdel2).mp htest2
      rw [hww] at hovl
      rcases max_choice 0 (min v.coord2 w.coord2 - max v.coord1 w.coord1)
        with hm | hm <;> rw [hm] at hovl
      · omega
      · have h1 : min v.coord2 w.coord2 ≤ w.coord2 := min_le_right _ _
        have h2 : v.coord1 ≤ max v.coord1 w.coord1 := le_max_left _ _
        omega

/-- Witness for claim C1 at a concrete input: one query deletion
`[100, 200)` against one target deletion `[150, 260)` with
`difflength = 60`, no length filter, `offset = 0`. -/
theorem claim_C1_witness :
    ∃ s ∈ deletion_hit_statistics
        [⟨100, 200, none, .DEL, none⟩] [⟨150, 260, none, .DEL, none⟩]
        .overlap false none none 0 60 none,
      s.index = 0 ∧
      ((∃ h ∈ s.hits, h.index = 0) ↔
        (0 < max 0 (min (200 : Int) 260 - max 100 150) ∧
         |((200 : Int) - 100) - (260 - 150)| ≤ 60)) ∧
      ((260 : Int) = 100 → ¬ ∃ h ∈ s.hits, h.index = 0) :=
  claim_C1_overlap_hit_iff
    [⟨100, 200, none, .DEL, none⟩] [⟨150, 260, none, .DEL, none⟩]
    none none 0 60 (by decide) (by decide) (by decide) 0 0
    ⟨100, 200, none, .DEL, none⟩ ⟨150, 260, none, .DEL, none⟩
    rfl rfl rfl rfl rfl rfl rfl rfl

theorem mem_insQueryEvents {trio : Bool} {minL maxL : Option Int}
    {tag : Option String} :
    ∀ (l : List Variation) (k : Nat) (x : Event),
      x ∈ insQueryEvents trio minL maxL tag k l ↔
        ∃ m v, l[m]? = some v ∧ insQueryPass trio minL maxL tag v = true ∧
          (x = (v.coord1, 1, 0, k + m) ∨
           x = (v.coord1 + v.coord2, 0, 0, k + m)) := by
  intro l
  induction l with
  | nil =>
    intro k x
    simp [insQueryEvents]
  | cons v vs ih =>
    intro k x
    simp only [insQueryEvents, List.mem_append]
    constructor
    · rintro (hx | hx)
      · by_cases hp : insQueryPass trio minL maxL tag v = true
        · rw [if_pos hp] at hx
          refine ⟨0, v, by simp, hp, ?_⟩
          simpa using hx
        · rw [if_neg hp] at hx
          simp at hx
      · obtain ⟨m, w, hm, hp, hx⟩ := (ih (k + 1) x).mp hx
        refine ⟨m + 1, w, by simpa using hm, hp, ?_⟩
        have he : k + 1 + m = k + (m + 1) := by omega
        rw [he] at hx
        exact hx
    · rintro ⟨m, w, hm, hp, hx⟩
      cases m with
      | zero =>
        left
        simp only [List.getElem?_cons_zero, Option.some.injEq] at hm
        subst hm
        rw [if_pos hp]
        rcases hx with h | h <;> simp [h]
      | succ m =>
        right
        simp only [List.getElem?_cons_succ] at hm
        refine (ih (k + 1) x).mpr ⟨m, w, hm, hp, ?_⟩
        have he : k + 1 + m = k + (m + 1) := by omega
        rw [he]
        exact hx

theorem nodup_insQueryEvents (trio : Bool) (minL maxL : Option Int)
    (tag : Option String) :
    ∀ (l : List Variation) (k : Nat),
      (insQueryEvents trio minL maxL tag k l).Nodup := by
  intro l
  induction l with
  | nil =>
    intro k
    simp [insQueryEvents]
  | cons v vs ih =>
    intro k
    rw [insQueryEvents]
    refine List.Nodup.append ?_ (ih (k + 1)) ?_
    · by_cases hp : insQueryPass trio minL maxL tag v = true
      · rw [if_pos hp]
        simp [Prod.mk.injEq]
      · rw [if_neg hp]
        simp
    · intro x hx hxr
      obtain ⟨m, w, -, -, hx2⟩ := (mem_insQueryEvents vs (k + 1) x).mp hxr
      have hxk : x.2.2.2 = k := by
        by_cases hp : insQueryPass trio minL maxL tag v = true
        · rw [if_pos hp] at hx
          simp only [List.mem_cons, List.not_mem_nil, or_false] at hx
          rcases hx with rfl | rfl <;> rfl
        · rw [if_neg hp] at hx
          simp at hx
      rcases hx2 with hx2 | hx2 <;> rw [hx2] at hxk <;> simp at hxk <;> omega

theorem nodup_insTargetEvents (minL maxL : Option Int) (offset difflength : Int) :
    ∀ (l : List Variation) (k : Nat),
      (insTargetEvents minL maxL offset difflength k l).Nodup := by
  intro l
  induction l with
  | nil =>
    intro k
    simp [insTargetEvents]
  | cons v vs ih =>
    intro k
    rw [insTargetEvents]
    refine List.Nodup.append ?_ (ih (k + 1)) ?_
    · by_cases hp : insTargetPass minL maxL difflength v = true
      · rw [if_pos hp]
        simp [Prod.mk.injEq]
      · rw [if_neg hp]
        simp
    · intro x hx hxr
      obtain ⟨m, w, -, -, hx2⟩ := (mem_insTargetEvents vs (k + 1) x).mp hxr
      have hxk : x.2.2.2 = k := by
        by_cases hp : insTargetPass minL maxL difflength v = true
        · rw [if_pos hp] at hx
          simp only [List.mem_cons, List.not_mem_nil, or_false] at hx
          rcases hx with rfl | rfl <;> rfl
        · rw [if_neg hp] at hx
          simp at hx
      rcases hx2 with hx2 | hx2 <;> rw [hx2] at hxk <;> simp at hxk <;> omega

theorem S0_mem_insQueryEvents_iff {trio : Bool} {minL maxL : Option Int}
    {tag : Option String} {self : List Variation} {a : Int} {i : Nat} :
    ((a, 1, 0, i) : Event) ∈ insQueryEvents trio minL maxL tag 0 self ↔
      ∃ v, self[i]? = some v ∧ insQueryPass trio minL maxL tag v = true ∧
        a = v.coord1 := by
  rw [mem_insQueryEvents]
  constructor
  · rintro ⟨m, v, hm, hp, (hx | hx)⟩ <;> rw [event_eq_iff] at hx
    · have hmi : m = i := by omega
      exact ⟨v, hmi ▸ hm, hp, hx.1⟩
    · omega
  · rintro ⟨v, hm, hp, rfl⟩
    refine ⟨i, v, hm, hp, Or.inl ?_⟩
    rw [event_eq_iff]
    omega

theorem E0_mem_insQueryEvents_iff {trio : Bool} {minL maxL : Option Int}
    {tag : Option String} {self : List Variation} {c : Int} {i : Nat} :
    ((c, 0, 0, i) : Event) ∈ insQueryEvents trio minL maxL tag 0 self ↔
      ∃ v, self[i]? = some v ∧ insQueryPass trio minL maxL tag v = true ∧
        c = v.coord1 + v.coord2 := by
  rw [mem_insQueryEvents]
  constructor
  · rintro ⟨m, v, hm, hp, (hx | hx)⟩ <;> rw [event_eq_iff] at hx
    · omega
    · have hmi : m = i := by omega
      exact ⟨v, hmi ▸ hm, hp, hx.1⟩
  · rintro ⟨v, hm, hp, rfl⟩
    refine ⟨i, v, hm, hp, Or.inr ?_⟩
    rw [event_eq_iff]
    omega

theorem S1_mem_insTargetEvents_iff {minL maxL : Option Int}
    {offset difflength : Int} {another : List Variation} {b : Int} {j : Nat} :
    ((b, 1, 1, j) : Event) ∈ insTargetEvents minL maxL offset difflength 0 another ↔
      ∃ w, another[j]? = some w ∧ insTargetPass minL maxL difflength w = true ∧
        b = insTargetStart w - offset := by
  rw [mem_insTargetEvents]
  constructor
  · rintro ⟨m, w, hm, hp, (hx | hx)⟩ <;> rw [event_eq_iff] at hx
    · have hmj : m = j := by omega
      exact ⟨w, hmj ▸ hm, hp, hx.1⟩
    · omega
  · rintro ⟨w, hm, hp, rfl⟩
    refine ⟨j, w, hm, hp, Or.inl ?_⟩
    rw [event_eq_iff]
    omega

theorem E1_mem_insTargetEvents_iff {minL maxL : Option Int}
    {offset difflength : Int} {another : List Variation} {c : Int} {j : Nat} :
    ((c, 0, 1, j) : Event) ∈ insTargetEvents minL maxL offset difflength 0 another ↔
      ∃ w, another[j]? = some w ∧ insTargetPass minL maxL difflength w = true ∧
        c = insTargetStop w + offset := by
  rw [mem_insTargetEvents]
  constructor
  · rintro ⟨m, w, hm, hp, (hx | hx)⟩ <;> rw [event_eq_iff] at hx
    · omega
    · have hmj : m = j := by omega
      exact ⟨w, hmj ▸ hm, hp, hx.1⟩
  · rintro ⟨w, hm, hp, rfl⟩
    refine ⟨j, w, hm, hp, Or.inr ?_⟩
    rw [event_eq_iff]
    omega

theorem insQueryPass_INS {trio : Bool} {minL maxL : Option Int}
    {tag : Option String} {v : Variation}
    (h : insQueryPass trio minL maxL tag v = true) : v.var_type = .INS := by
  simp only [insQueryPass, Bool.and_eq_true, beq_iff_eq] at h
  exact h.1.1.1.1

theorem insQueryPass_pos {trio : Bool} {minL maxL : Option Int}
    {tag : Option String} {v : Variation}
    (h : insQueryPass trio minL maxL tag v = true) : 0 < v.coord2 := by
  simp only [insQueryPass, Bool.and_eq_true, decide_eq_true_eq] at h
  exact h.1.1.2

theorem insTargetPass_kind {minL maxL : Option Int} {difflength : Int}
    {w : Variation} (h : insTargetPass minL maxL difflength w = true) :
    w.var_type = .INS ∨ w.var_type = .MIX := by
  cases hk : w.var_type with
  | DEL =>
    rw [insTargetPass, hk] at h
    simp at h
  | INS => exact Or.inl rfl
  | MIX => exact Or.inr rfl

theorem insTargetPass_pos_INS {minL maxL : Option Int} {difflength : Int}
    {w : Variation} (hk : w.var_type = .INS)
    (h : insTargetPass minL maxL difflength w = true) : 0 < w.coord2 := by
  rw [insTargetPass, hk] at h
  simp only [Bool.and_eq_true, decide_eq_true_eq] at h
  exact h.1.1

theorem insTargetStart_INS {w : Variation} (h : w.var_type = .INS) :
    insTargetStart w = w.coord1 := by
  rw [insTargetStart, h]

theorem insTargetStop_INS {w : Variation} (h : w.var_type = .INS) :
    insTargetStop w = w.coord1 + w.coord2 := by
  rw [insTargetStop, h]

/-- Characterization of the sweep's candidate pairs in
`insertion_distances`, the exact analogue of
`mem_find_all_deletion_overlaps`: under the no-degenerate-interval side
conditions, target `j` is a candidate for query `i` exactly when both pass
their filters and the raw query interval `[pos, pos + length)` strictly
intersects the `offset`-widened target interval. -/
theorem mem_insertion_distances
    (self another : List Variation) (trio : Bool) (minL maxL : Option Int)
    (offset difflength : Int) (tag : Option String)
    (hq : ∀ v ∈ self, insQueryPass trio minL maxL tag v = true →
      v.coord1 < v.coord1 + v.coord2)
    (ht : ∀ w ∈ another, insTargetPass minL maxL difflength w = true →
      insTargetStart w - offset < insTargetStop w + offset)
    (i j : Nat) :
    (i, j) ∈ insertion_distances self another trio minL maxL offset
        difflength tag ↔
      ∃ v w, self[i]? = some v ∧ another[j]? = some w ∧
        insQueryPass trio minL maxL tag v = true ∧
        insTargetPass minL maxL difflength w = true ∧
        max v.coord1 (insTargetStart w - offset) <
          min (v.coord1 + v.coord2) (insTargetStop w + offset) := by
  set qe := insQueryEvents trio minL maxL tag 0 self with hqe
  set te := insTargetEvents minL maxL offset difflength 0 another with hte
  have hS0 : ∀ (a : Int) (i' : Nat), ((a, 1, 0, i') : Event) ∈ qe ++ te ↔
      ∃ v, self[i']? = some v ∧ insQueryPass trio minL maxL tag v = true ∧
        a = v.coord1 := by
    intro a i'
    rw [List.mem_append]
    constructor
    · rintro (h | h)
      · exact S0_mem_insQueryEvents_iff.mp h
      · obtain ⟨m, w, -, -, h2⟩ := (mem_insTargetEvents _ 0 _).mp h
        exfalso
        rcases h2 with h2 | h2 <;> rw [event_eq_iff] at h2 <;> omega
    · intro h
      exact Or.inl (S0_mem_insQueryEvents_iff.mpr h)
  have hE0 : ∀ (c : Int) (i' : Nat), ((c, 0, 0, i') : Event) ∈ qe ++ te ↔
      ∃ v, self[i']? = some v ∧ insQueryPass trio minL maxL tag v = true ∧
        c = v.coord1 + v.coord2 := by
    intro c i'
    rw [List.mem_append]
    constructor
    · rintro (h | h)
      · exact E0_mem_insQueryEvents_iff.mp h
      · obtain ⟨m, w, -, -, h2⟩ := (mem_insTargetEvents _ 0 _).mp h
        exfalso
        rcases h2 with h2 | h2 <;> rw [event_eq_iff] at h2 <;> omega
    · intro h
      exact Or.inl (E0_mem_insQueryEvents_iff.mpr h)
  have hS1 : ∀ (b : Int) (j' : Nat), ((b, 1, 1, j') : Event) ∈ qe ++ te ↔
      ∃ w, another[j']? = some w ∧ insTargetPass minL maxL difflength w = true ∧
        b = insTargetStart w - offset := by
    intro b j'
    rw [List.mem_append]
    constructor
    · rintro (h | h)
      · obtain ⟨m, v, -, -, h2⟩ := (mem_insQueryEvents _ 0 _).mp h
        exfalso
        rcases h2 with h2 | h2 <;> rw [event_eq_iff] at h2 <;> omega
      · exact S1_mem_insTargetEvents_iff.mp h
    · intro h
      exact Or.inr (S1_mem_insTargetEvents_iff.mpr h)
  have hE1 : ∀ (c : Int) (j' : Nat), ((c, 0, 1, j') : Event) ∈ qe ++ te ↔
      ∃ w, another[j']? = some w ∧ insTargetPass minL maxL difflength w = true ∧
        c = insTargetStop w + offset := by
    intro c j'
    rw [List.mem_append]
    constructor
    · rintro (h | h)
      · obtain ⟨m, v, -, -, h2⟩ := (mem_insQueryEvents _ 0 _).mp h
        exfalso
        rcases h2 with h2 | h2 <;> rw [event_eq_iff] at h2 <;> omega
      · exact E1_mem_insTargetEvents_iff.mp h
    · intro h
      exact Or.inr (E1_mem_insTargetEvents_iff.mpr h)
  have hshape : ∀ x ∈ qe ++ te,
      (x.2.1 = 0 ∨ x.2.1 = 1) ∧ (x.2.2.1 = 0 ∨ x.2.2.1 = 1) := by
    intro x hx
    rcases List.mem_append.mp hx with hx | hx
    · obtain ⟨m, v, -, -, hx2⟩ := (mem_insQueryEvents _ 0 _).mp hx
      rcases hx2 with rfl | rfl <;> simp
    · obtain ⟨m, w, -, -, hx2⟩ := (mem_insTargetEvents _ 0 _).mp hx
      rcases hx2 with rfl | rfl <;> simp
  have hnodup : (qe ++ te).Nodup := by
    refine List.Nodup.append (nodup_insQueryEvents trio minL maxL tag self 0)
      (nodup_insTargetEvents minL maxL offset difflength another 0) ?_
    intro x hx hx2
    obtain ⟨m, v, -, -, h2⟩ := (mem_insQueryEvents _ 0 _).mp hx
    obtain ⟨m2, w, -, -, h3⟩ := (mem_insTargetEvents _ 0 _).mp hx2
    rcases h2 with rfl | rfl <;> rcases h3 with h3 | h3 <;>
      rw [event_eq_iff] at h3 <;> omega
  have huniq : ∀ x ∈ qe ++ te, ∀ y ∈ qe ++ te,
      x.2.1 = y.2.1 → x.2.2.1 = y.2.2.1 → x.2.2.2 = y.2.2.2 → x = y := by
    intro x hx y hy h1 h2 h3
    rcases List.mem_append.mp hx with hxq | hxt <;>
      rcases List.mem_append.mp hy with hyq | hyt
    · obtain ⟨m, v, hm, -, hx2⟩ := (mem_insQueryEvents _ 0 _).mp hxq
      obtain ⟨m2, v2, hm2, -, hy2⟩ := (mem_insQueryEvents _ 0 _).mp hyq
      rcases hx2 with rfl | rfl <;> rcases hy2 with rfl | rfl <;>
        dsimp only at h1 h2 h3
      · have hmm : m = m2 := by omega
        subst hmm
        have hv : v = v2 := Option.some.inj (hm.symm.trans hm2)
        rw [hv]
      · exact absurd h1 (by decide)
      · exact absurd h1 (by decide)
      · have hmm : m = m2 := by omega
        subst hmm
        have hv : v = v2 := Option.some.inj (hm.symm.trans hm2)
        rw [hv]
    · obtain ⟨m, v, -, -, hx2⟩ := (mem_insQueryEvents _ 0 _).mp hxq
      obtain ⟨m2, w, -, -, hy2⟩ := (mem_insTargetEvents _ 0 _).mp hyt
      exfalso
      rcases hx2 with rfl | rfl <;> rcases hy2 with rfl | rfl <;>
        dsimp only at h2 <;> omega
    · obtain ⟨m, w, -, -, hx2⟩ := (mem_insTargetEvents _ 0 _).mp hxt
      obtain ⟨m2, v, -, -, hy2⟩ := (mem_insQueryEvents _ 0 _).mp hyq
      exfalso
      rcases hx2 with rfl | rfl <;> rcases hy2 with rfl | rfl <;>
        dsimp only at h2 <;> omega
    · obtain ⟨m, w, hm, -, hx2⟩ := (mem_insTargetEvents _ 0 _).mp hxt
      obtain ⟨m2, w2, hm2, -, hy2⟩ := (mem_insTargetEvents _ 0 _).mp hyt
      rcases hx2 with rfl | rfl <;> rcases hy2 with rfl | rfl <;>
        dsimp only at h1 h2 h3
      · have hmm : m = m2 := by omega
        subst hmm
        have hw : w = w2 := Option.some.inj (hm.symm.trans hm2)
        rw [hw]
      · exact absurd h1 (by decide)
      · exact absurd h1 (by decide)
      · have hmm : m = m2 := by omega
        subst hmm
        have hw : w = w2 := Option.some.inj (hm.symm.trans hm2)
        rw [hw]
  have hSE : ∀ (q : Int) (lid n : Nat), ((q, 1, lid, n) : Event) ∈ qe ++ te →
      ∃ r : Int, ((r, 0, lid, n) : Event) ∈ qe ++ te ∧ q < r := by
    intro q lid n hmem
    rcases List.mem_append.mp hmem with hmem | hmem
    · obtain ⟨m, v, hm, hpv, hx2⟩ := (mem_insQueryEvents _ 0 _).mp hmem
      rcases hx2 with hx2 | hx2 <;> rw [event_eq_iff] at hx2
      · obtain ⟨rfl, -, rfl, rfl⟩ := hx2
        refine ⟨v.coord1 + v.coord2,
          (hE0 (v.coord1 + v.coord2) (0 + m)).mpr ⟨v, ?_, hpv, rfl⟩,
          hq v (List.getElem?_mem hm) hpv⟩
        simpa using hm
      · exfalso
        omega
    · obtain ⟨m, w, hm, hpw, hx2⟩ := (mem_insTargetEvents _ 0 _).mp hmem
      rcases hx2 with hx2 | hx2 <;> rw [event_eq_iff] at hx2
      · obtain ⟨rfl, -, rfl, rfl⟩ := hx2
        refine ⟨insTargetStop w + offset, (hE1 (insTargetStop w + offset) (0 + m)).mpr
          ⟨w, ?_, hpw, rfl⟩, ht w (List.getElem?_mem hm) hpw⟩
        simpa using hm
      · exfalso
        omega
  rw [show insertion_distances self another trio minL maxL offset
      difflength tag = (sweep (qe ++ te)).res from rfl]
  rw [mem_sweep_res (qe ++ te) hshape hnodup huniq hSE i j]
  constructor
  · rintro (⟨a, b, c, haL, hbL, hcL, h1, h2⟩ | ⟨a, b, c, hbL, haL, hcL, h1, h2⟩)
    · rw [mem_sortEvents] at haL hbL hcL
      obtain ⟨v, hvi, hvp, rfl⟩ := (hS0 a i).mp haL
      obtain ⟨w, hwj, hwp, rfl⟩ := (hS1 b j).mp hbL
      obtain ⟨w2, hwj2, -, rfl⟩ := (hE1 c j).mp hcL
      have hww : w2 = w := Option.some.inj (hwj2.symm.trans hwj)
      subst hww
      rw [evLT_S1_S0] at h1
      rw [evLT_S0_E1] at h2
      have h3 := hq v (List.getElem?_mem hvi) hvp
      have h4 := ht w2 (List.getElem?_mem hwj) hwp
      refine ⟨v, w2, hvi, hwj, hvp, hwp, ?_⟩
      rw [max_lt_iff, lt_min_iff, lt_min_iff]
      exact ⟨⟨h3, h2⟩, by omega, h4⟩
    · rw [mem_sortEvents] at haL hbL hcL
      obtain ⟨w, hwj, hwp, rfl⟩ := (hS1 b j).mp hbL
      obtain ⟨v, hvi, hvp, rfl⟩ := (hS0 a i).mp haL
      obtain ⟨v2, hvi2, -, rfl⟩ := (hE0 c i).mp hcL
      have hvv : v2 = v := Option.some.inj (hvi2.symm.trans hvi)
      subst hvv
      rw [evLT_S0_S1] at h1
      rw [evLT_S1_E0] at h2
      have h3 := hq v2 (List.getElem?_mem hvi) hvp
      have h4 := ht w (List.getElem?_mem hwj) hwp
      refine ⟨v2, w, hvi, hwj, hvp, hwp, ?_⟩
      rw [max_lt_iff, lt_min_iff, lt_min_iff]
      exact ⟨⟨h3, by omega⟩, h2, h4⟩
  · rintro ⟨v, w, hvi, hwj, hvp, hwp, hlt⟩
    rw [max_lt_iff, lt_min_iff, lt_min_iff] at hlt
    by_cases hcase : insTargetStart w - offset < v.coord1
    · refine Or.inl ⟨v.coord1, insTargetStart w - offset, insTargetStop w + offset,
        mem_sortEvents.mpr ((hS0 _ _).mpr ⟨v, hvi, hvp, rfl⟩),
        mem_sortEvents.mpr ((hS1 _ _).mpr ⟨w, hwj, hwp, rfl⟩),
        mem_sortEvents.mpr ((hE1 _ _).mpr ⟨w, hwj, hwp, rfl⟩),
        evLT_S1_S0.mpr hcase, evLT_S0_E1.mpr hlt.1.2⟩
    · refine Or.inr ⟨v.coord1, insTargetStart w - offset, v.coord1 + v.coord2,
        mem_sortEvents.mpr ((hS1 _ _).mpr ⟨w, hwj, hwp, rfl⟩),
        mem_sortEvents.mpr ((hS0 _ _).mpr ⟨v, hvi, hvp, rfl⟩),
        mem_sortEvents.mpr ((hE0 _ _).mpr ⟨v, hvi, hvp, rfl⟩),
        evLT_S0_S1.mpr (by omega), evLT_S1_E0.mpr hlt.2.1⟩

/-- Claim C4, counterexample: candidate generation is not symmetric under
swapping query and target.  With `min_length = 1`, `max_length = 100`,
`offset = difflength = 0`, a length-3 deletion `[0, 3)` in one collection
and a length-6 deletion `[0, 6)` in the other: in the direction where the
length-3 variant is the query, the pair is a candidate; in the reverse
direction the length-3 variant is a target and is dropped by the
floor-at-5 widened target filter, so the pair is absent. -/
theorem claim_C4_counterexample :
    (0, 0) ∈ find_all_deletion_overlaps [⟨0, 3, none, .DEL, none⟩]
        [⟨0, 6, none, .DEL, none⟩] false (some 1) (some 100) 0 0 none ∧
    (0, 0) ∉ find_all_deletion_overlaps [⟨0, 6, none, .DEL, none⟩]
        [⟨0, 3, none, .DEL, none⟩] false (some 1) (some 100) 0 0 none := by
  decide

/-- Claim C4 (amended): in both matchers, candidacy is symmetric for a
pair of variants of the queried kind (`DEL`–`DEL` for
`find_all_deletion_overlaps`, `INS`–`INS` for `insertion_distances`) each
of which passes both the raw query length filter and the widened target
length filter (and with positive emitted interval lengths and nonnegative
`offset`, as the sweep requires): `j` is a candidate of query `i` in one
direction iff `i` is a candidate of query `j` in the reverse direction. -/
theorem claim_C4_amended_symmetry :
    (∀ (A B : List Variation) (min_length max_length : Option Int)
      (offset difflength : Int), 0 ≤ offset →
      (∀ u ∈ A, (u.var_type = .DEL → u.coord1 < u.coord2) ∧
        (u.var_type = .MIX → u.coord1 - offset < u.coord2 + offset)) →
      (∀ u ∈ B, (u.var_type = .DEL → u.coord1 < u.coord2) ∧
        (u.var_type = .MIX → u.coord1 - offset < u.coord2 + offset)) →
      ∀ (i j : Nat) (v w : Variation),
        A[i]? = some v → B[j]? = some w →
        delQueryPass false min_length max_length none v = true →
        delTargetPass min_length max_length difflength v = true →
        delQueryPass false min_length max_length none w = true →
        delTargetPass min_length max_length difflength w = true →
        ((i, j) ∈ find_all_deletion_overlaps A B false min_length max_length
            offset difflength none ↔
          (j, i) ∈ find_all_deletion_overlaps B A false min_length max_length
            offset difflength none)) ∧
    (∀ (A B : List Variation) (min_length max_length : Option Int)
      (offset difflength : Int), 0 ≤ offset →
      (∀ u ∈ A, u.var_type = .MIX → 0 < u.coord3.getD 0) →
      (∀ u ∈ B, u.var_type = .MIX → 0 < u.coord3.getD 0) →
      ∀ (i j : Nat) (v w : Variation),
        A[i]? = some v → B[j]? = some w →
        insQueryPass false min_length max_length none v = true →
        insTargetPass min_length max_length difflength v = true →
        insQueryPass false min_length max_length none w = true →
        insTargetPass min_length max_length difflength w = true →
        ((i, j) ∈ insertion_distances A B false min_length max_length
            offset difflength none ↔
          (j, i) ∈ insertion_distances B A false min_length max_length
            offset difflength none)) := by
  constructor
  · intro A B min_length max_length offset difflength hoff hA hB i j v w
      hvi hwj hvq hvt hwq hwt
    have hq2 : ∀ (l : List Variation),
        (∀ u ∈ l, (u.var_type = .DEL → u.coord1 < u.coord2) ∧
          (u.var_type = .MIX → u.coord1 - offset < u.coord2 + offset)) →
        ∀ u ∈ l, delQueryPass false min_length max_length none u = true →
          u.coord1 < u.coord2 :=
      fun l hl u hu hp => (hl u hu).1 (delQueryPass_DEL hp)
    have ht2 : ∀ (l : List Variation),
        (∀ u ∈ l, (u.var_type = .DEL → u.coord1 < u.coord2) ∧
          (u.var_type = .MIX → u.coord1 - offset < u.coord2 + offset)) →
        ∀ u ∈ l, delTargetPass min_length max_length difflength u = true →
          u.coord1 - offset < u.coord2 + offset := by
      intro l hl u hu hp
      rcases delTargetPass_kind hp with h | h
      · have := (hl u hu).1 h
        omega
      · exact (hl u hu).2 h
    have hvpos : v.coord1 < v.coord2 :=
      (hA v (List.getElem?_mem hvi)).1 (delQueryPass_DEL hvq)
    have hwpos : w.coord1 < w.coord2 :=
      (hB w (List.getElem?_mem hwj)).1 (delQueryPass_DEL hwq)
    rw [mem_find_all_deletion_overlaps A B false min_length max_length offset
      difflength none (hq2 A hA) (ht2 B hB) i j]
    rw [mem_find_all_deletion_overlaps B A false min_length max_length offset
      difflength none (hq2 B hB) (ht2 A hA) j i]
    constructor
    · rintro ⟨v2, w2, hv2, hw2, -, -, hlt⟩
      have e1 : v2 = v := Option.some.inj (hv2.symm.trans hvi)
      have e2 : w2 = w := Option.some.inj (hw2.symm.trans hwj)
      rw [e1, e2] at hlt
      refine ⟨w, v, hwj, hvi, hwq, hvt, ?_⟩
      rw [max_lt_iff, lt_min_iff, lt_min_iff] at hlt ⊢
      omega
    · rintro ⟨w2, v2, hw2, hv2, -, -, hlt⟩
      have e1 : v2 = v := Option.some.inj (hv2.symm.trans hvi)
      have e2 : w2 = w := Option.some.inj (hw2.symm.trans hwj)
      rw [e1, e2] at hlt
      refine ⟨v, w, hvi, hwj, hvq, hwt, ?_⟩
      rw [max_lt_iff, lt_min_iff, lt_min_iff] at hlt ⊢
      omega
  · intro A B min_length max_length offset difflength hoff hA hB i j v w
      hvi hwj hvq hvt hwq hwt
    have hq2 : ∀ (l : List Variation),
        ∀ u ∈ l, insQueryPass false min_length max_length none u = true →
          u.coord1 < u.coord1 + u.coord2 := by
      intro l u hu hp
      have := insQueryPass_pos hp
      omega
    have ht2 : ∀ (l : List Variation),
        (∀ u ∈ l, u.var_type = .MIX → 0 < u.coord3.getD 0) →
        ∀ u ∈ l, insTargetPass min_length max_length difflength u = true →
          insTargetStart u - offset < insTargetStop u + offset := by
      intro l hl u hu hp
      rcases insTargetPass_kind hp with h | h
      · have h2 := insTargetPass_pos_INS h hp
        rw [insTargetStart_INS h, insTargetStop_INS h]
        omega
      · have h2 := hl u hu h
        simp only [insTargetStart, insTargetStop, h]
        omega
    have hvI : v.var_type = .INS := insQueryPass_INS hvq
    have hwI : w.var_type = .INS := insQueryPass_INS hwq
    have hvpos : 0 < v.coord2 := insQueryPass_pos hvq
    have hwpos : 0 < w.coord2 := insQueryPass_pos hwq
    rw [mem_insertion_distances A B false min_length max_length offset
      difflength none (hq2 A) (ht2 B hB) i j]
    rw [mem_insertion_distances B A false min_length max_length offset
      difflength none (hq2 B) (ht2 A hA) j i]
    constructor
    · rintro ⟨v2, w2, hv2, hw2, -, -, hlt⟩
      have e1 : v2 = v := Option.some.inj (hv2.symm.trans hvi)
      have e2 : w2 = w := Option.some.inj (hw2.symm.trans hwj)
      rw [e1, e2, insTargetStart_INS hwI, insTargetStop_INS hwI] at hlt
      refine ⟨w, v, hwj, hvi, hwq, hvt, ?_⟩
      rw [insTargetStart_INS hvI, insTargetStop_INS hvI]
      rw [max_lt_iff, lt_min_iff, lt_min_iff] at hlt ⊢
      omega
    · rintro ⟨w2, v2, hw2, hv2, -, -, hlt⟩
      have e1 : v2 = v := Option.some.inj (hv2.symm.trans hvi)
      have e2 : w2 = w := Option.some.inj (hw2.symm.trans hwj)
      rw [e1, e2, insTargetStart_INS hvI, insTargetStop_INS hvI] at hlt
      refine ⟨v, w, hvi, hwj, hvq, hwt, ?_⟩
      rw [insTargetStart_INS hwI, insTargetStop_INS hwI]
      rw [max_lt_iff, lt_min_iff, lt_min_iff] at hlt ⊢
      omega

/-- Witness for the amended claim C4 at concrete inputs: deletions
`[0, 10)` and `[5, 20)` for the deletion matcher, and insertions of
lengths 30 at position 100 and 25 at position 110 for the insertion
matcher, with no length filter and zero tolerances. -/
theorem claim_C4_witness :
    ((0, 0) ∈ find_all_deletion_overlaps [⟨0, 10, none, .DEL, none⟩]
        [⟨5, 20, none, .DEL, none⟩] false none none 0 0 none ↔
      (0, 0) ∈ find_all_deletion_overlaps [⟨5, 20, none, .DEL, none⟩]
        [⟨0, 10, none, .DEL, none⟩] false none none 0 0 none) ∧
    ((0, 0) ∈ insertion_distances [⟨100, 30, none, .INS, none⟩]
        [⟨110, 25, none, .INS, none⟩] false none none 0 0 none ↔
      (0, 0) ∈ insertion_distances [⟨110, 25, none, .INS, none⟩]
        [⟨100, 30, none, .INS, none⟩] false none none 0 0 none) :=
  ⟨claim_C4_amended_symmetry.1 [⟨0, 10, none, .DEL, none⟩]
      [⟨5, 20, none, .DEL, none⟩] none none 0 0 (by decide) (by decide)
      (by decide) 0 0 ⟨0, 10, none, .DEL, none⟩ ⟨5, 20, none, .DEL, none⟩
      rfl rfl rfl rfl rfl rfl,
   claim_C4_amended_symmetry.2 [⟨100, 30, none, .INS, none⟩]
      [⟨110, 25, none, .INS, none⟩] none none 0 0 (by decide) (by decide)
      (by decide) 0 0 ⟨100, 30, none, .INS, none⟩ ⟨110, 25, none, .INS, none⟩
      rfl rfl rfl rfl rfl rfl⟩

theorem targetMinOk_some_iff {a d len : Int} :
    targetMinOk (some a) d len = true ↔ max (a - d) 5 ≤ len := by
  simp only [targetMinOk, Bool.not_eq_true', decide_eq_false_iff_not, not_lt]

theorem targetMaxOk_some_iff {b d len : Int} :
    targetMaxOk (some b) d len = true ↔ len ≤ b + d := by
  simp only [targetMaxOk, Bool.not_eq_true', decide_eq_false_iff_not, not_lt,
    gt_iff_lt]

theorem delTargetPass_some_iff {a b d : Int} {w : Variation}
    (hk : w.var_type = .DEL ∨ w.var_type = .MIX) :
    delTargetPass (some a) (some b) d w = true ↔
      (max (a - d) 5 ≤ effective_del_length w ∧
       effective_del_length w ≤ b + d) := by
  rcases hk with hk | hk <;>
    simp [delTargetPass, hk, targetMinOk_some_iff, targetMaxOk_some_iff]

theorem insTargetPass_some_iff {a b d : Int} {w : Variation}
    (hk : w.var_type = .INS ∨ w.var_type = .MIX) :
    insTargetPass (some a) (some b) d w = true ↔
      (max (a - d) 5 ≤ effective_ins_length w ∧
       effective_ins_length w ≤ b + d) := by
  have h5 : (5 : Int) ≤ max (a - d) 5 := le_max_right _ _
  rcases hk with hk | hk <;>
    simp [insTargetPass, effective_ins_length, hk, targetMinOk_some_iff,
      targetMaxOk_some_iff] <;>
    omega

/-- Claim C3, counterexample: with `min_length = 5`, `max_length = 100`,
`difflength = 3`, a target deletion of length 3 satisfies the claim's
widened bound `min_length - difflength ≤ length ≤ max_length + difflength`
(`2 ≤ 3 ≤ 103`) yet emits no sweep events, because the code floors the
widened lower bound at 5 (`max(min_length - difflength, 5)`). -/
theorem claim_C3_counterexample :
    ((5 : Int) - 3 ≤ 3 ∧ (3 : Int) ≤ 100 + 3) ∧
    delTargetEvents (some 5) (some 100) 0 3 0 [⟨0, 3, none, .DEL, none⟩] = [] := by
  decide

/-- Claim C3 (amended): with both `min_length` and `max_length` set, a
target variant of the queried kind (or `MIX`, judged by its effective
length) emits its two sweep events if and only if its effective length
`len` satisfies `max(min_length - difflength, 5) ≤ len ≤
max_length + difflength` — the widened filter with its lower bound floored
at 5.  The first conjunct covers the deletion matcher
(`find_all_deletion_overlaps`), the second the insertion matcher
(`insertion_distances`). -/
theorem claim_C3_amended_target_filter (l : List Variation) (n : Nat)
    (w : Variation) (a b off d : Int) (hw : l[n]? = some w) :
    ((w.var_type = .DEL ∨ w.var_type = .MIX) →
      ((((w.coord1 - off, 1, 1, n) : Event) ∈
          delTargetEvents (some a) (some b) off d 0 l ∧
        ((w.coord2 + off, 0, 1, n) : Event) ∈
          delTargetEvents (some a) (some b) off d 0 l) ↔
       (max (a - d) 5 ≤ effective_del_length w ∧
        effective_del_length w ≤ b + d))) ∧
    ((w.var_type = .INS ∨ w.var_type = .MIX) →
      ((((insTargetStart w - off, 1, 1, n) : Event) ∈
          insTargetEvents (some a) (some b) off d 0 l ∧
        ((insTargetStop w + off, 0, 1, n) : Event) ∈
          insTargetEvents (some a) (some b) off d 0 l) ↔
       (max (a - d) 5 ≤ effective_ins_length w ∧
        effective_ins_length w ≤ b + d))) := by
  constructor
  · intro hk
    rw [← delTargetPass_some_iff hk]
    constructor
    · rintro ⟨h1, -⟩
      obtain ⟨m, w2, hm, hp, hsh⟩ := (mem_delTargetEvents l 0 _).mp h1
      rcases hsh with hsh | hsh <;> rw [event_eq_iff] at hsh
      · have hmn : m = n := by omega
        subst hmn
        have : w2 = w := Option.some.inj (hm.symm.trans hw)
        rw [← this]
        exact hp
      · omega
    · intro hp
      constructor
      · refine (mem_delTargetEvents l 0 _).mpr ⟨n, w, hw, hp, Or.inl ?_⟩
        rw [event_eq_iff]
        omega
      · refine (mem_delTargetEvents l 0 _).mpr ⟨n, w, hw, hp, Or.inr ?_⟩
        rw [event_eq_iff]
        omega
  · intro hk
    rw [← insTargetPass_some_iff hk]
    constructor
    · rintro ⟨h1, -⟩
      obtain ⟨m, w2, hm, hp, hsh⟩ := (mem_insTargetEvents l 0 _).mp h1
      rcases hsh with hsh | hsh <;> rw [event_eq_iff] at hsh
      · have hmn : m = n := by omega
        subst hmn
        have : w2 = w := Option.some.inj (hm.symm.trans hw)
        rw [← this]
        exact hp
      · omega
    · intro hp
      constructor
      · refine (mem_insTargetEvents l 0 _).mpr ⟨n, w, hw, hp, Or.inl ?_⟩
        rw [event_eq_iff]
        omega
      · refine (mem_insTargetEvents l 0 _).mpr ⟨n, w, hw, hp, Or.inr ?_⟩
        rw [event_eq_iff]
        omega

/-- Witness for the amended claim C3 at a concrete input: a deletion of
length 20 with `min_length = 10`, `max_length = 100`, `difflength = 4`. -/
theorem claim_C3_witness :
    (((⟨30, 50, none, .DEL, none⟩ : Variation).var_type = .DEL ∨
      (⟨30, 50, none, .DEL, none⟩ : Variation).var_type = .MIX) →
      ((((⟨30, 50, none, .DEL, none⟩ : Variation).coord1 - 7, 1, 1, 0) : Event) ∈
          delTargetEvents (some 10) (some 100) 7 4 0
            [⟨30, 50, none, .DEL, none⟩] ∧
        (((⟨30, 50, none, .DEL, none⟩ : Variation).coord2 + 7, 0, 1, 0) : Event) ∈
          delTargetEvents (some 10) (some 100) 7 4 0
            [⟨30, 50, none, .DEL, none⟩] ↔
       (max ((10 : Int) - 4) 5 ≤ effective_del_length ⟨30, 50, none, .DEL, none⟩ ∧
        effective_del_length ⟨30, 50, none, .DEL, none⟩ ≤ 100 + 4))) ∧
    (((⟨30, 50, none, .DEL, none⟩ : Variation).var_type = .INS ∨
      (⟨30, 50, none, .DEL, none⟩ : Variation).var_type = .MIX) →
      (((insTargetStart ⟨30, 50, none, .DEL, none⟩ - 7, 1, 1, 0) : Event) ∈
          insTargetEvents (some 10) (some 100) 7 4 0
            [⟨30, 50, none, .DEL, none⟩] ∧
        ((insTargetStop ⟨30, 50, none, .DEL, none⟩ + 7, 0, 1, 0) : Event) ∈
          insTargetEvents (some 10) (some 100) 7 4 0
            [⟨30, 50, none, .DEL, none⟩] ↔
       (max ((10 : Int) - 4) 5 ≤ effective_ins_length ⟨30, 50, none, .DEL, none⟩ ∧
        effective_ins_length ⟨30, 50, none, .DEL, none⟩ ≤ 100 + 4))) :=
  claim_C3_amended_target_filter [⟨30, 50, none, .DEL, none⟩] 0
    ⟨30, 50, none, .DEL, none⟩ 10 100 7 4 rfl

/-! ### Best-hit selection -/

theorem bestAux_spec (dflt : Hit) :
    ∀ (hs : List Hit) (n : Nat) (s : WithTop ℚ) (k : Nat),
      (bestAux n s k hs = (s, k) ∧
        ∀ m, m < hs.length → s ≤ (hitScore (hs.getD m dflt) : WithTop ℚ)) ∨
      (∃ m, m < hs.length ∧
        bestAux n s k hs = ((hitScore (hs.getD m dflt) : WithTop ℚ), n + m) ∧
        (hitScore (hs.getD m dflt) : WithTop ℚ) < s ∧
        (∀ m2, m2 < hs.length →
          hitScore (hs.getD m dflt) ≤ hitScore (hs.getD m2 dflt)) ∧
        (∀ m2, m2 < m →
          hitScore (hs.getD m dflt) < hitScore (hs.getD m2 dflt))) := by
  intro hs
  induction hs with
  | nil =>
    intro n s k
    left
    refine ⟨rfl, ?_⟩
    intro m hm
    simp at hm
  | cons h t ih =>
    intro n s k
    by_cases hc : (hitScore h : WithTop ℚ) < s
    · have hstep : bestAux n s k (h :: t) = bestAux (n + 1) (hitScore h) n t := by
        rw [bestAux, if_pos hc]
      rcases ih (n + 1) (hitScore h) n with ⟨heq, hmin⟩ |
        ⟨m, hm, heq, hlt, hminall, hbefore⟩
      · right
        refine ⟨0, by simp, ?_, hc, ?_, ?_⟩
        · rw [hstep, heq, Prod.mk.injEq]
          simp
        · intro m2 hm2
          cases m2 with
          | zero => simp
          | succ m2 =>
            simp only [List.getD_cons_succ, List.getD_cons_zero]
            have h2 := hmin m2 (by simpa using hm2)
            exact_mod_cast h2
        · intro m2 hm2
          exact absurd hm2 (Nat.not_lt_zero m2)
      · right
        refine ⟨m + 1, by simpa using hm, ?_, lt_trans hlt hc, ?_, ?_⟩
        · rw [hstep, heq, Prod.mk.injEq]
          simp only [List.getD_cons_succ]
          refine ⟨by trivial, by omega⟩
        · intro m2 hm2
          cases m2 with
          | zero =>
            simp only [List.getD_cons_succ, List.getD_cons_zero]
            have h2 : hitScore (t.getD m dflt) < hitScore h := by exact_mod_cast hlt
            exact le_of_lt h2
          | succ m2 =>
            simp only [List.getD_cons_succ]
            exact hminall m2 (by simpa using hm2)
        · intro m2 hm2
          cases m2 with
          | zero =>
            simp only [List.getD_cons_succ, List.getD_cons_zero]
            exact_mod_cast hlt
          | succ m2 =>
            simp only [List.getD_cons_succ]
            exact hbefore m2 (by omega)
    · have hstep : bestAux n s k (h :: t) = bestAux (n + 1) s k t := by
        rw [bestAux, if_neg hc]
      rcases ih (n + 1) s k with ⟨heq, hmin⟩ | ⟨m, hm, heq, hlt, hminall, hbefore⟩
      · left
        refine ⟨hstep.trans heq, ?_⟩
        intro m hm2
        cases m with
        | zero =>
          simp only [List.getD_cons_zero]
          exact not_lt.mp hc
        | succ m =>
          simp only [List.getD_cons_succ]
          exact hmin m (by simpa using hm2)
      · right
        refine ⟨m + 1, by simpa using hm, ?_, hlt, ?_, ?_⟩
        · rw [hstep, heq, Prod.mk.injEq]
          simp only [List.getD_cons_succ]
          refine ⟨by trivial, by omega⟩
        · intro m2 hm2
          cases m2 with
          | zero =>
            simp only [List.getD_cons_succ, List.getD_cons_zero]
            have h1 : (hitScore (t.getD m dflt) : WithTop ℚ) <
                (hitScore h : WithTop ℚ) := lt_of_lt_of_le hlt (not_lt.mp hc)
            have h2 : hitScore (t.getD m dflt) < hitScore h := by exact_mod_cast h1
            exact le_of_lt h2
          | succ m2 =>
            simp only [List.getD_cons_succ]
            exact hminall m2 (by simpa using hm2)
        · intro m2 hm2
          cases m2 with
          | zero =>
            simp only [List.getD_cons_succ, List.getD_cons_zero]
            have h1 : (hitScore (t.getD m dflt) : WithTop ℚ) <
                (hitScore h : WithTop ℚ) := lt_of_lt_of_le hlt (not_lt.mp hc)
            exact_mod_cast h1
          | succ m2 =>
            simp only [List.getD_cons_succ]
            exact hbefore m2 (by omega)

/-- Claim C5: on a non-empty hit list, `get_best_hit` returns the hit
minimizing the Chebyshev score `max(length_diff, offset)`; among equal
minimal scores the first hit in accumulation order wins (every strictly
earlier hit has a strictly larger score); and re-selecting from the same
unchanged list yields the same result (selection is a pure function of
the list). -/
theorem claim_C5_best_hit (hits : List Hit) (hne : hits ≠ []) :
    ∃ k, k < hits.length ∧
      get_best_hit hits = some (hits.getD k ⟨0, 0, 0, none⟩) ∧
      (∀ m, m < hits.length →
        hitScore (hits.getD k ⟨0, 0, 0, none⟩) ≤
          hitScore (hits.getD m ⟨0, 0, 0, none⟩)) ∧
      (∀ m, m < k →
        hitScore (hits.getD m ⟨0, 0, 0, none⟩) >
          hitScore (hits.getD k ⟨0, 0, 0, none⟩)) ∧
      get_best_hit hits = get_best_hit hits := by
  rcases bestAux_spec ⟨0, 0, 0, none⟩ hits 0 ⊤ 0 with ⟨-, hmin⟩ |
    ⟨m, hm, heq, -, hminall, hbefore⟩
  · exfalso
    have hlen : 0 < hits.length := List.length_pos.mpr hne
    have h2 := hmin 0 hlen
    simp only [top_le_iff] at h2
    exact WithTop.coe_ne_top h2
  · have h2 : (bestAux 0 ⊤ 0 hits).2 = m := by
      rw [heq]
      exact Nat.zero_add m
    refine ⟨m, hm, ?_, hminall, hbefore, rfl⟩
    rw [get_best_hit, if_neg (fun h0 => hne (List.length_eq_zero.mp h0)), h2]

/-- Witness for claim C5 at a concrete input: a two-element hit list where
the second hit has the smaller score, so index 1 is selected. -/
theorem claim_C5_witness :
    ∃ k, k < ([⟨0, 5, 0, none⟩, ⟨1, 3, 0, none⟩] : List Hit).length ∧
      get_best_hit [⟨0, 5, 0, none⟩, ⟨1, 3, 0, none⟩] =
        some (([⟨0, 5, 0, none⟩, ⟨1, 3, 0, none⟩] : List Hit).getD k ⟨0, 0, 0, none⟩) ∧
      (∀ m, m < ([⟨0, 5, 0, none⟩, ⟨1, 3, 0, none⟩] : List Hit).length →
        hitScore (([⟨0, 5, 0, none⟩, ⟨1, 3, 0, none⟩] : List Hit).getD k ⟨0, 0, 0, none⟩) ≤
          hitScore (([⟨0, 5, 0, none⟩, ⟨1, 3, 0, none⟩] : List Hit).getD m ⟨0, 0, 0, none⟩)) ∧
      (∀ m, m < k →
        hitScore (([⟨0, 5, 0, none⟩, ⟨1, 3, 0, none⟩] : List Hit).getD m ⟨0, 0, 0, none⟩) >
          hitScore (([⟨0, 5, 0, none⟩, ⟨1, 3, 0, none⟩] : List Hit).getD k ⟨0, 0, 0, none⟩)) ∧
      get_best_hit [⟨0, 5, 0, none⟩, ⟨1, 3, 0, none⟩] =
        get_best_hit [⟨0, 5, 0, none⟩, ⟨1, 3, 0, none⟩] :=
  claim_C5_best_hit [⟨0, 5, 0, none⟩, ⟨1, 3, 0, none⟩] (by decide)

/-! ### Summaries -/

theorem get_best_hit_isSome {st : VariationStatistics} (h : st.is_hit = true) :
    ∃ bh, get_best_hit st.hits = some bh := by
  rw [VariationStatistics.is_hit, decide_eq_true_eq] at h
  rw [get_best_hit, if_neg (by omega)]
  exact ⟨_, rfl⟩

theorem summarizeStep_fields (acc : SummarizeAcc) (stats : VariationStatistics) :
    (summarizeStep acc stats).hits = acc.hits + (if stats.is_hit then 1 else 0) ∧
    (summarizeStep acc stats).mix_hits =
      acc.mix_hits + (if !stats.is_hit && stats.is_mix_hit then 1 else 0) := by
  rw [summarizeStep]
  by_cases hh : stats.is_hit
  · obtain ⟨bh, hbh⟩ := get_best_hit_isSome hh
    rcases ht : stats.typing with - | t0 <;>
      rcases hbt : bh.typing with - | t1 <;>
      simp [ht, hbt, hbh, hh]
  · by_cases hm : stats.is_mix_hit <;>
      rcases ht : stats.typing with - | t0 <;>
      simp [ht, hh, hm]

theorem summarize_fold_counts :
    ∀ (sl : List VariationStatistics) (acc : SummarizeAcc),
      (sl.foldl summarizeStep acc).hits =
        acc.hits + sl.countP (fun s => s.is_hit) ∧
      (sl.foldl summarizeStep acc).mix_hits =
        acc.mix_hits + sl.countP (fun s => !s.is_hit && s.is_mix_hit) := by
  intro sl
  induction sl with
  | nil =>
    intro acc
    simp
  | cons stats sl ih =>
    intro acc
    rw [List.foldl_cons]
    obtain ⟨ih1, ih2⟩ := ih (summarizeStep acc stats)
    obtain ⟨hs1, hs2⟩ := summarizeStep_fields acc stats
    rw [List.countP_cons, List.countP_cons]
    constructor
    · rw [ih1, hs1]
      by_cases hh : stats.is_hit <;> simp [hh] <;> omega
    · rw [ih2, hs2]
      by_cases hh : (!stats.is_hit && stats.is_mix_hit) = true <;>
        simp [hh] <;> omega

theorem nan_div_eq_pnan {a b : ℚ} : nan_div a b = .pnan ↔ b = 0 := by
  rw [nan_div]
  by_cases hb : b = 0
  · simp [hb]
  · simp [hb]

theorem summarize_hits_count (sl : List VariationStatistics) :
    (summarize_variation_stats_list sl).hits =
      sl.countP (fun s => s.is_hit) := by
  have h := (summarize_fold_counts sl
    ⟨0, 0, 0, 0, [], fun _ _ => 0, fun _ => 0, fun _ => 0⟩).1
  simp only [summarize_variation_stats_list]
  simpa using h

theorem summarize_hit_rate (sl : List VariationStatistics) :
    (summarize_variation_stats_list sl).hit_rate =
      nan_div (sl.countP (fun s => s.is_hit) : ℚ) (sl.length : ℚ) := by
  have h := (summarize_fold_counts sl
    ⟨0, 0, 0, 0, [], fun _ _ => 0, fun _ => 0, fun _ => 0⟩).1
  simp only [summarize_variation_stats_list]
  simp only at h
  rw [h]
  simp

theorem summarize_mix_rate (sl : List VariationStatistics) :
    (summarize_variation_stats_list sl).mix_hit_rate =
      nan_div (sl.countP (fun s => !s.is_hit && s.is_mix_hit) : ℚ)
        (sl.length : ℚ) := by
  have h := (summarize_fold_counts sl
    ⟨0, 0, 0, 0, [], fun _ _ => 0, fun _ => 0, fun _ => 0⟩).2
  simp only [summarize_variation_stats_list]
  simp only at h
  rw [h]
  simp

/-- Claim C7: `summarize_variation_stats_list` reports
`hit_rate = hits / n` and `mix_hit_rate = mix_hits / n` (with `hits` the
number of outcomes with an exact hit and `mix_hits` the number with only
mix hits), both NaN exactly when `n = 0`; on the empty collection it
returns `hit_count = 0`, `hit_rate = NaN`, and the all-zero genotype
matrix, without raising an error (the embedding is a total function). -/
theorem claim_C7_summarize_rates :
    (∀ sl : List VariationStatistics,
      (summarize_variation_stats_list sl).hits =
        sl.countP (fun s => s.is_hit) ∧
      (summarize_variation_stats_list sl).hit_rate =
        nan_div (sl.countP (fun s => s.is_hit) : ℚ) (sl.length : ℚ) ∧
      (summarize_variation_stats_list sl).mix_hit_rate =
        nan_div (sl.countP (fun s => !s.is_hit && s.is_mix_hit) : ℚ)
          (sl.length : ℚ) ∧
      ((summarize_variation_stats_list sl).hit_rate = .pnan ↔ sl.length = 0) ∧
      ((summarize_variation_stats_list sl).mix_hit_rate = .pnan ↔
        sl.length = 0)) ∧
    (summarize_variation_stats_list []).hits = 0 ∧
    (summarize_variation_stats_list []).hit_rate = .pnan ∧
    (summarize_variation_stats_list []).typematrix = fun _ _ => 0 := by
  refine ⟨?_, ?_, ?_, ?_⟩
  · intro sl
    refine ⟨summarize_hits_count sl, summarize_hit_rate sl,
      summarize_mix_rate sl, ?_, ?_⟩
    · rw [summarize_hit_rate sl, nan_div_eq_pnan]
      exact_mod_cast Iff.rfl
    · rw [summarize_mix_rate sl, nan_div_eq_pnan]
      exact_mod_cast Iff.rfl
  · rfl
  · rfl
  · rfl

theorem countP_hit_mix_le (sl : List VariationStatistics) :
    sl.countP (fun s => s.is_hit) +
      sl.countP (fun s => !s.is_hit && s.is_mix_hit) ≤ sl.length := by
  induction sl with
  | nil =>
    simp
  | cons stats sl ih =>
    rw [List.countP_cons, List.countP_cons, List.length_cons]
    by_cases hh : stats.is_hit <;> by_cases hm2 : stats.is_mix_hit <;>
      simp [hh, hm2] <;> omega

/-- Claim C10: exact hits take precedence over mix hits in
`summarize_variation_stats_list`: an outcome with an exact hit counts only
toward `hits`, the mix count is exactly the number of outcomes with an
empty exact-hit list and a non-empty mix-hit list, hence
`hits + mix_hits ≤ n` and `hit_rate + mix_hit_rate ≤ 1` whenever `n > 0`. -/
theorem claim_C10_hit_precedence (sl : List VariationStatistics) :
    (summarize_variation_stats_list sl).hits =
      sl.countP (fun s => s.is_hit) ∧
    (sl.foldl summarizeStep
      ⟨0, 0, 0, 0, [], fun _ _ => 0, fun _ => 0, fun _ => 0⟩).mix_hits =
      sl.countP (fun s => !s.is_hit && s.is_mix_hit) ∧
    sl.countP (fun s => s.is_hit) +
      sl.countP (fun s => !s.is_hit && s.is_mix_hit) ≤ sl.length ∧
    (0 < sl.length → ∃ q1 q2 : ℚ,
      (summarize_variation_stats_list sl).hit_rate = .pnum q1 ∧
      (summarize_variation_stats_list sl).mix_hit_rate = .pnum q2 ∧
      q1 + q2 ≤ 1) := by
  refine ⟨summarize_hits_count sl, ?_, countP_hit_mix_le sl, ?_⟩
  · have h := (summarize_fold_counts sl
      ⟨0, 0, 0, 0, [], fun _ _ => 0, fun _ => 0, fun _ => 0⟩).2
    simpa using h
  · intro hn
    have hne : (sl.length : ℚ) ≠ 0 := by
      exact_mod_cast Nat.pos_iff_ne_zero.mp hn
    refine ⟨(sl.countP (fun s => s.is_hit) : ℚ) / (sl.length : ℚ),
      (sl.countP (fun s => !s.is_hit && s.is_mix_hit) : ℚ) / (sl.length : ℚ),
      ?_, ?_, ?_⟩
    · rw [summarize_hit_rate sl, nan_div, if_neg hne]
    · rw [summarize_mix_rate sl, nan_div, if_neg hne]
    · rw [div_add_div_same, div_le_one (by exact_mod_cast hn)]
      exact_mod_cast countP_hit_mix_le sl

/-- Witness for claim C10 at a concrete input: a single outcome with one
exact hit gives `hit_rate = 1`, `mix_hit_rate = 0`, summing to at most 1. -/
theorem claim_C10_witness :
    0 < ([⟨0, none, [⟨0, 2, 1, none⟩], []⟩] : List VariationStatistics).length ∧
    ∃ q1 q2 : ℚ,
      (summarize_variation_stats_list
        [⟨0, none, [⟨0, 2, 1, none⟩], []⟩]).hit_rate = .pnum q1 ∧
      (summarize_variation_stats_list
        [⟨0, none, [⟨0, 2, 1, none⟩], []⟩]).mix_hit_rate = .pnum q2 ∧
      q1 + q2 ≤ 1 :=
  ⟨by decide,
   (claim_C10_hit_precedence [⟨0, none, [⟨0, 2, 1, none⟩], []⟩]).2.2.2 (by decide)⟩

/-! ### Exclusivity -/

theorem getD_zipWith (f : Bool → Bool → Bool) :
    ∀ (a b : List Bool) (m : Nat), m < a.length → m < b.length →
      (List.zipWith f a b).getD m false =
        f (a.getD m false) (b.getD m false) := by
  intro a
  induction a with
  | nil =>
    intro b m h
    simp at h
  | cons x xs ih =>
    intro b m ha hb
    cases b with
    | nil => simp at hb
    | cons y ys =>
      cases m with
      | zero => simp
      | succ m =>
        simp only [List.zipWith_cons_cons, List.getD_cons_succ]
        exact ih ys m (by simpa using ha) (by simpa using hb)

theorem getD_replicate_false : ∀ (n m : Nat),
    (List.replicate n false).getD m false = false := by
  intro n
  induction n with
  | zero =>
    intro m
    simp
  | succ n ih =>
    intro m
    rw [List.replicate_succ]
    cases m with
    | zero => simp
    | succ m =>
      rw [List.getD_cons_succ]
      exact ih m

theorem or_fold_spec (bitarrays : List (List Bool)) (t : Nat) (n : Nat)
    (hlen : ∀ ba ∈ bitarrays, ba.length = n) :
    ∀ (ix : List Nat) (acc : List Bool), acc.length = n →
      (∀ i ∈ ix, i < bitarrays.length) →
      (ix.foldl (fun acc i => if i = t then acc
          else bitarray_or acc (bitarrays.getD i [])) acc).length = n ∧
      ∀ m, m < n →
        (ix.foldl (fun acc i => if i = t then acc
            else bitarray_or acc (bitarrays.getD i [])) acc).getD m false =
          (acc.getD m false ||
           ix.any (fun i => decide (i ≠ t) && (bitarrays.getD i []).getD m false)) := by
  intro ix
  induction ix with
  | nil =>
    intro acc hacc hix
    refine ⟨hacc, ?_⟩
    intro m hm
    simp
  | cons i ix ih =>
    intro acc hacc hix
    have hib : i < bitarrays.length := hix i (List.mem_cons_self i ix)
    have hbi : (bitarrays.getD i []).length = n := by
      rw [List.getD_eq_getElem?_getD, List.getElem?_eq_getElem hib]
      exact hlen _ (List.getElem_mem hib)
    rw [List.foldl_cons]
    by_cases hit : i = t
    · rw [if_pos hit]
      obtain ⟨hl, he⟩ := ih acc hacc (fun i2 hi2 => hix i2 (List.mem_cons_of_mem i hi2))
      refine ⟨hl, ?_⟩
      intro m hm
      rw [he m hm, List.any_cons]
      simp [hit]
    · rw [if_neg hit]
      have hlen2 : (bitarray_or acc (bitarrays.getD i [])).length = n := by
        rw [bitarray_or, List.length_zipWith, hacc, hbi]
        exact Nat.min_self n
      obtain ⟨hl, he⟩ := ih (bitarray_or acc (bitarrays.getD i [])) hlen2
        (fun i2 hi2 => hix i2 (List.mem_cons_of_mem i hi2))
      refine ⟨hl, ?_⟩
      intro m hm
      rw [he m hm, List.any_cons, bitarray_or,
        getD_zipWith or acc (bitarrays.getD i []) m (by omega) (by omega)]
      simp only [hit, decide_not, Bool.not_false, Bool.true_and, ne_eq,
        decide_eq_true_eq]
      cases acc.getD m false <;> cases (bitarrays.getD i []).getD m false <;> simp [hit]

theorem recall_others_spec (bitarrays : List (List Bool)) (tool_idx : Nat)
    (n : Nat) (hlen : ∀ ba ∈ bitarrays, ba.length = n)
    (htool : tool_idx < bitarrays.length) :
    (recall_others bitarrays tool_idx).length = n ∧
    ∀ m, m < n →
      ((recall_others bitarrays tool_idx).getD m false = true ↔
        ∃ i, i < bitarrays.length ∧ i ≠ tool_idx ∧
          (bitarrays.getD i []).getD m false = true) := by
  have hown : (bitarrays.getD tool_idx []).length = n := by
    rw [List.getD_eq_getElem?_getD, List.getElem?_eq_getElem htool]
    exact hlen _ (List.getElem_mem htool)
  have hinit : (List.replicate (bitarrays.getD tool_idx []).length false).length = n := by
    rw [List.length_replicate, hown]
  obtain ⟨hl, he⟩ := or_fold_spec bitarrays tool_idx n hlen
    (List.range bitarrays.length)
    (List.replicate (bitarrays.getD tool_idx []).length false) hinit
    (fun i hi => List.mem_range.mp hi)
  refine ⟨hl, ?_⟩
  intro m hm
  rw [recall_others, he m hm, getD_replicate_false, Bool.false_or,
    List.any_eq_true]
  constructor
  · rintro ⟨i, hi, hcond⟩
    simp only [Bool.and_eq_true, decide_eq_true_eq] at hcond
    exact ⟨i, List.mem_range.mp hi, hcond.1, hcond.2⟩
  · rintro ⟨i, hi, hne, hbit⟩
    refine ⟨i, List.mem_range.mpr hi, ?_⟩
    simp only [Bool.and_eq_true, decide_eq_true_eq]
    exact ⟨hne, hbit⟩

/-- Claim C6: the exclusivity computation of `aggregate_toolwise_statistics`
marks a recalled true variant as exclusive to a tool iff the tool's recall
bit is set and the bitwise OR of all other tools' recall bits is clear,
and the exclusivity rate is the exclusive count over the total
true-variant count; the computation is a function of the per-tool recall
bit-vectors and is applied identically and independently to the insertion
and the deletion bit-vectors. -/
theorem claim_C6_exclusivity (bitarrays : List (List Bool)) (n tool_idx : Nat)
    (hlen : ∀ ba ∈ bitarrays, ba.length = n)
    (htool : tool_idx < bitarrays.length) :
    (∀ m, m < n →
      ((exclusive_hits bitarrays tool_idx).getD m false = true ↔
        ((bitarrays.getD tool_idx []).getD m false = true ∧
         ∀ i, i < bitarrays.length → i ≠ tool_idx →
           (bitarrays.getD i []).getD m false = false))) ∧
    exclusivity_rate bitarrays tool_idx =
      nan_div (bit_count (exclusive_hits bitarrays tool_idx) : ℚ) (n : ℚ) := by
  have hown : (bitarrays.getD tool_idx []).length = n := by
    rw [List.getD_eq_getElem?_getD, List.getElem?_eq_getElem htool]
    exact hlen _ (List.getElem_mem htool)
  obtain ⟨hol, hoe⟩ := recall_others_spec bitarrays tool_idx n hlen htool
  constructor
  · intro m hm
    rw [exclusive_hits, bitarray_and_not,
      getD_zipWith (fun x y => x && !y) _ _ m (by omega) (by omega)]
    rw [Bool.and_eq_true, Bool.not_eq_true']
    constructor
    · rintro ⟨h1, h2⟩
      refine ⟨h1, ?_⟩
      intro i hi hne
      by_contra hbit
      rw [Bool.not_eq_false] at hbit
      have := (hoe m hm).mpr ⟨i, hi, hne, hbit⟩
      rw [this] at h2
      cases h2
    · rintro ⟨h1, h2⟩
      refine ⟨h1, ?_⟩
      by_contra hor
      rw [Bool.not_eq_false] at hor
      obtain ⟨i, hi, hne, hbit⟩ := (hoe m hm).mp hor
      rw [h2 i hi hne] at hbit
      cases hbit
  · rw [exclusivity_rate, hown]

/-- Witness for claim C6 at a concrete input: three tools with recall
bit-vectors of length 2, the first tool exclusively recalling variant 0. -/
theorem claim_C6_witness :
    (∀ m, m < 2 →
      ((exclusive_hits [[true, true], [false, true], [false, true]] 0).getD m false = true ↔
        ((([[true, true], [false, true], [false, true]] : List (List Bool)).getD 0 []).getD m false = true ∧
         ∀ i, i < ([[true, true], [false, true], [false, true]] : List (List Bool)).length →
           i ≠ 0 →
           (([[true, true], [false, true], [false, true]] : List (List Bool)).getD i []).getD m false = false))) ∧
    exclusivity_rate [[true, true], [false, true], [false, true]] 0 =
      nan_div (bit_count (exclusive_hits [[true, true], [false, true], [false, true]] 0) : ℚ) ((2 : Nat) : ℚ) :=
  claim_C6_exclusivity [[true, true], [false, true], [false, true]] 2 0
    (by decide) (by decide)

/-! ### F-measure and genotype encoding -/

/-- Claim C8: `f_measure` equals `2*precision*recall/(precision+recall)`
when both inputs are finite numbers with nonzero sum, and is NaN when
either input is NaN or the sum is zero; in particular
`f_measure(1/2, 1/2) = 1/2` and `f_measure(0, 0) = NaN`. -/
theorem claim_C8_f_measure :
    (∀ r p : ℚ, r + p ≠ 0 →
      f_measure (.pnum r) (.pnum p) = .pnum (2 * (r * p) / (r + p))) ∧
    (∀ r p : ℚ, r + p = 0 → f_measure (.pnum r) (.pnum p) = .pnan) ∧
    (∀ x : ℚ, f_measure .pnan (.pnum x) = .pnan) ∧
    (∀ x : ℚ, f_measure (.pnum x) .pnan = .pnan) ∧
    f_measure .pnan .pnan = .pnan ∧
    f_measure (.pnum (1 / 2)) (.pnum (1 / 2)) = .pnum (1 / 2) ∧
    f_measure (.pnum 0) (.pnum 0) = .pnan := by
  refine ⟨?_, ?_, fun x => rfl, fun x => rfl, rfl, ?_, ?_⟩
  · intro r p h
    simp [f_measure, h]
  · intro r p h
    simp [f_measure, h]
  · have h : (1 : ℚ) / 2 + 1 / 2 ≠ 0 := by norm_num
    rw [f_measure]
    rw [if_neg h]
    norm_num
  · rw [f_measure]
    norm_num

/-- Witness for claim C8 at a concrete input: recall and precision both
one half. -/
theorem claim_C8_witness :
    f_measure (.pnum (1 / 2)) (.pnum (1 / 2)) =
      .pnum (2 * ((1 / 2 : ℚ) * (1 / 2)) / ((1 / 2 : ℚ) + 1 / 2)) := by
  exact claim_C8_f_measure.1 (1 / 2) (1 / 2) (by norm_num)

/-- Claim C9: `index_from_type` maps each of the 27 canonical 3-character
ternary genotype strings to its `typedict` index in `[0, 26]`, with the
last character at weight `3^0` and weights increasing leftward
(`9*d0 + 3*d1 + d2`); the encoding is injective over the 27 strings, and
decoding the index of `"021"` (via the inverted `typedict`) yields
`"021"` again. -/
theorem claim_C9_genotype_index :
    (∀ kv ∈ typedict, index_from_type kv.1 = kv.2 ∧ kv.2 ≤ 26 ∧
      index_from_type kv.1 =
        9 * charDigit (kv.1.data.getD 0 '0') +
          3 * charDigit (kv.1.data.getD 1 '0') +
          charDigit (kv.1.data.getD 2 '0')) ∧
    List.Pairwise (fun s t => index_from_type s ≠ index_from_type t)
      (typedict.map (fun kv => kv.1)) ∧
    triotype_from_index (index_from_type "021") = some "021" := by
  refine ⟨by decide, by decide, by decide⟩

/-- Witness for claim C9 at a concrete input: the genotype string "021". -/
theorem claim_C9_witness :
    index_from_type "021" = 7 ∧ (7 : Nat) ≤ 26 ∧
    index_from_type "021" =
      9 * charDigit (("021" : String).data.getD 0 '0') +
        3 * charDigit (("021" : String).data.getD 1 '0') +
        charDigit (("021" : String).data.getD 2 '0') := by
  exact claim_C9_genotype_index.1 ("021", 7) (by decide)

/-! ### The fixed-distance end-to-end scenario -/

theorem C2_hit_test :
    delHitTest .fixed_distance 50 20 ⟨100, 200, none, .DEL, none⟩
      ⟨105, 195, none, .DEL, none⟩ = true ∧
    delHitTest .fixed_distance 50 20 ⟨105, 195, none, .DEL, none⟩
      ⟨100, 200, none, .DEL, none⟩ = true := by
  constructor <;>
  · simp only [delHitTest, effective_del_length, center]
    norm_num

theorem C2_stats_1 :
    deletion_stats_for [⟨105, 195, none, .DEL, none⟩] {(0, 0)} .fixed_distance
        false 50 20 0 ⟨100, 200, none, .DEL, none⟩ =
      ⟨0, none, [⟨0, 10, 0, none⟩], []⟩ := by
  have ht := C2_hit_test.1
  have hoff : |center ⟨100, 200, none, .DEL, none⟩ -
      center (⟨105, 195, none, .DEL, none⟩ : Variation)| = (0 : ℚ) := by
    norm_num [center]
  simp only [deletion_stats_for]
  norm_num [List.range_succ, List.filter_cons, List.filter_nil,
    List.foldl_cons, List.foldl_nil, delStatsStep, List.getElem?_cons_zero,
    ht, typingOf, VariationStatistics.add_hit, hoff, effective_del_length]
  decide

theorem C2_stats_2 :
    deletion_stats_for [⟨100, 200, none, .DEL, none⟩] {(0, 0)} .fixed_distance
        false 50 20 0 ⟨105, 195, none, .DEL, none⟩ =
      ⟨0, none, [⟨0, 10, 0, none⟩], []⟩ := by
  have ht := C2_hit_test.2
  have hoff : |center ⟨105, 195, none, .DEL, none⟩ -
      center (⟨100, 200, none, .DEL, none⟩ : Variation)| = (0 : ℚ) := by
    norm_num [center]
  simp only [deletion_stats_for]
  norm_num [List.range_succ, List.filter_cons, List.filter_nil,
    List.foldl_cons, List.foldl_nil, delStatsStep, List.getElem?_cons_zero,
    ht, typingOf, VariationStatistics.add_hit, hoff, effective_del_length]
  decide

theorem C2_dhs_1 :
    deletion_hit_statistics [⟨100, 200, none, .DEL, none⟩]
        [⟨105, 195, none, .DEL, none⟩] .fixed_distance false (some 90)
        (some 100) 50 20 none = [⟨0, none, [⟨0, 10, 0, none⟩], []⟩] := by
  have hov : find_all_deletion_overlaps [⟨100, 200, none, .DEL, none⟩]
      [⟨105, 195, none, .DEL, none⟩] false (some 90) (some 100) 50 20 none =
      {(0, 0)} := by decide
  have hq : delQueryPass false (some 90) (some 100) none
      ⟨100, 200, none, .DEL, none⟩ = true := by decide
  simp only [deletion_hit_statistics, hov, enumerate, List.filterMap_cons,
    List.filterMap_nil, hq, if_true]
  rw [C2_stats_1]

theorem C2_dhs_2 :
    deletion_hit_statistics [⟨105, 195, none, .DEL, none⟩]
        [⟨100, 200, none, .DEL, none⟩] .fixed_distance false (some 90)
        (some 100) 50 20 none = [⟨0, none, [⟨0, 10, 0, none⟩], []⟩] := by
  have hov : find_all_deletion_overlaps [⟨105, 195, none, .DEL, none⟩]
      [⟨100, 200, none, .DEL, none⟩] false (some 90) (some 100) 50 20 none =
      {(0, 0)} := by decide
  have hq : delQueryPass false (some 90) (some 100) none
      ⟨105, 195, none, .DEL, none⟩ = true := by decide
  simp only [deletion_hit_statistics, hov, enumerate, List.filterMap_cons,
    List.filterMap_nil, hq, if_true]
  rw [C2_stats_2]

/-- Claim C2, counterexample: in the claim's own scenario — truth deletion
`[100, 200)` against predicted deletion `[105, 195)` in `fixed_distance`
mode with `offset = 50`, `difflength = 20`, length range `[90, 100]` —
the single recorded hit has `length_diff = 10` (the lengths are 100 and
90), not `0` as claimed. -/
theorem claim_C2_counterexample :
    deletion_hit_statistics [⟨100, 200, none, .DEL, none⟩]
        [⟨105, 195, none, .DEL, none⟩] .fixed_distance false (some 90)
        (some 100) 50 20 none = [⟨0, none, [⟨0, 10, 0, none⟩], []⟩] ∧
    ((10 : Int) ≠ 0) :=
  ⟨C2_dhs_1, by decide⟩

/-- Claim C2 (amended): in `fixed_distance` mode with `offset = 50`,
`difflength = 20` and length range `[90, 100]`, matching truth deletion
`[100, 200)` against predicted deletion `[105, 195)` records, in both
directions, exactly one outcome with exactly one exact deletion hit whose
`length_diff` is `10` and whose center distance is `0`; that hit is the
best hit, and both directions summarize to `hit_rate = 1` (so precision =
recall = 1) with `mix_hit_rate = 0`. -/
theorem claim_C2_amended_scenario :
    deletion_hit_statistics [⟨100, 200, none, .DEL, none⟩]
        [⟨105, 195, none, .DEL, none⟩] .fixed_distance false (some 90)
        (some 100) 50 20 none = [⟨0, none, [⟨0, 10, 0, none⟩], []⟩] ∧
    deletion_hit_statistics [⟨105, 195, none, .DEL, none⟩]
        [⟨100, 200, none, .DEL, none⟩] .fixed_distance false (some 90)
        (some 100) 50 20 none = [⟨0, none, [⟨0, 10, 0, none⟩], []⟩] ∧
    get_best_hit [⟨0, 10, 0, none⟩] = some ⟨0, 10, 0, none⟩ ∧
    (summarize_variation_stats_list
      [⟨0, none, [⟨0, 10, 0, none⟩], []⟩]).hit_rate = .pnum 1 ∧
    (summarize_variation_stats_list
      [⟨0, none, [⟨0, 10, 0, none⟩], []⟩]).mix_hit_rate = .pnum 0 := by
  refine ⟨C2_dhs_1, C2_dhs_2, ?_, ?_, ?_⟩
  · have hb : (bestAux 0 ⊤ 0 [(⟨0, 10, 0, none⟩ : Hit)]).2 = 0 := by
      rw [bestAux, if_pos (WithTop.coe_lt_top _), bestAux]
    rw [get_best_hit, if_neg (by simp), hb]
    rfl
  · rw [summarize_hit_rate]
    norm_num [VariationStatistics.is_hit, nan_div]
  · rw [summarize_mix_rate]
    norm_num [VariationStatistics.is_hit, nan_div]

end SVEval
